import Mathlib

/-!
Verification development for the `expu::darray` dynamic-array container
(`src/include/expu/containers/darray.hpp`).

The container state is embedded shallowly: the pointer triad of
`_darray_data` (`first`, `last`, `end`) becomes three natural-number
addresses (`0` plays the role of `nullptr`), and the contents of the
currently owned allocation become a list of slots, where slot `i` of the
list is the memory at address `first + i`.  A constructed element is a
`some` slot; allocated-but-uninitialized memory is a `none` slot.

Allocation is modelled by an explicit heap: a list of live blocks
`(address, capacity)`.  `Heap.alloc` hands out a fresh nonzero address
past every live block, `Heap.dealloc` removes a block.

Element constructors and copy assignments may fail (C++ exceptions).
Failures are driven by an oracle `Nat → Bool` consulted with a running
invocation counter: the k-th fallible element operation of a call throws
exactly when the oracle returns `true` at the current counter.  Moves are
governed by `Traits.nothrowMove`, mirroring the
`std::is_nothrow_move_constructible` / `is_nothrow_move_assignable`
dispatch in the source: when it is `true` moves are infallible and do not
tick the counter, otherwise the source falls back to copies (fallible).
Operations that can throw return `Except`, with the error payload
carrying the heap, the container state and the counter at the moment the
exception escapes the function.

The range primitives (`destroy_range`, `uninitialised_copy`,
`uninitialised_move`, `backward_move`/`backward_copy`,
`copy_until_sentinel`, `_ctg_duplicate`) live in headers that are not
part of the repository snapshot (`expu/mem_utils.hpp`,
`expu/containers/contiguous_container.hpp`); they are modelled from the
spec where marked.
-/

namespace Expu

/-- Failure oracle: `orc n = true` means the `n`-th fallible element
operation (copy construction, construction from arguments, or copy
assignment) throws. -/
abbrev Oracle := Nat → Bool

/-- Element-type traits relevant to the container's dispatch:
`nothrowMove` models `std::is_nothrow_move_constructible_v` (and the
matching move-assign trait); `maxSize` models
`allocator_traits::max_size`. -/
structure Traits where
  nothrowMove : Bool
  maxSize : Nat
deriving DecidableEq, Repr

/-- The set of live allocations: `(address, capacity)` pairs. -/
structure Heap where
  blocks : List (Nat × Nat)
deriving DecidableEq, Repr

/-- A fresh address strictly past every live block (hence nonzero). -/
def Heap.fresh (h : Heap) : Nat :=
  (h.blocks.foldr (fun b m => max (b.1 + b.2) m) 0) + 1

/-- `allocator_traits::allocate`: returns the new block's address and the
grown heap. -/
def Heap.alloc (h : Heap) (n : Nat) : Nat × Heap :=
  (h.fresh, ⟨h.blocks ++ [(h.fresh, n)]⟩)

/-- `allocator_traits::deallocate`: removes the block at `addr`. -/
def Heap.dealloc (h : Heap) (addr : Nat) : Heap :=
  ⟨h.blocks.filter (fun b => b.1 ≠ addr)⟩

/-! ### Raw-memory range primitives

These operate on the slot list of one block.  Indices are block-relative
(slot `i` is the memory at `block start + i`). -/

/-- Slice of slots `[i, j)` of a block. -/
def sliceRange (mem : List (Option α)) (i j : Nat) : List (Option α) :=
  (mem.drop i).take (j - i)

/-- Write the values `xs` into consecutive slots starting at `i`
(infallible bulk write; used to model nothrow move construction). -/
def writeSlots (mem : List (Option α)) (i : Nat) (xs : List (Option α)) :
    List (Option α) :=
  match xs with
  | [] => mem
  | x :: rest => writeSlots (mem.set i x) (i + 1) rest

/-- Modelled from the spec: `destroy_range` — destroys the elements in
slots `[i, j)`, leaving the slots uninitialized. -/
def destroyRange (mem : List (Option α)) (i j : Nat) : List (Option α) :=
  mem.mapIdx (fun k v => if i ≤ k ∧ k < j then none else v)

/-- Modelled from the spec: `uninitialised_copy` — copy-constructs the
values `xs` into the uninitialized slots starting at `i`, one at a time;
each construction ticks the oracle.  On a failure it destroys the
elements it had constructed and rethrows (strong local rollback). -/
def uninitCopy (mem : List (Option α)) (i : Nat) (xs : List (Option α))
    (orc : Oracle) (n : Nat) :
    Except (List (Option α) × Nat) (List (Option α) × Nat) :=
  match xs with
  | [] => .ok (mem, n)
  | x :: rest =>
    if orc n then .error (mem, n + 1)
    else
      match uninitCopy (mem.set i x) (i + 1) rest orc (n + 1) with
      | .ok r => .ok r
      | .error (m, n') => .error (m.set i none, n')

/-- Modelled from the spec: plain `copy` — copy-assigns the values `xs`
over the constructed slots starting at `i`; assignments already
performed are kept when a later assignment throws. -/
def assignSlots (mem : List (Option α)) (i : Nat) (xs : List (Option α))
    (orc : Oracle) (n : Nat) :
    Except (List (Option α) × Nat) (List (Option α) × Nat) :=
  match xs with
  | [] => .ok (mem, n)
  | x :: rest =>
    if orc n then .error (mem, n + 1)
    else assignSlots (mem.set i x) (i + 1) rest orc (n + 1)

/-- Helper for `backwardAssignSlots`: assigns the (already reversed)
values downwards ending below `jLast`. -/
def backwardAssignAux (mem : List (Option α)) (jLast : Nat)
    (rxs : List (Option α)) (orc : Oracle) (n : Nat) :
    Except (List (Option α) × Nat) (List (Option α) × Nat) :=
  match rxs with
  | [] => .ok (mem, n)
  | x :: rest =>
    if orc n then .error (mem, n + 1)
    else backwardAssignAux (mem.set (jLast - 1) x) (jLast - 1) rest orc (n + 1)

/-- Modelled from the spec: `backward_copy` — copy-assigns the values
`xs` into the slots ending at `jLast`, processing from the back (the
slot `jLast - 1` is assigned first). -/
def backwardAssignSlots (mem : List (Option α)) (jLast : Nat)
    (xs : List (Option α)) (orc : Oracle) (n : Nat) :
    Except (List (Option α) × Nat) (List (Option α) × Nat) :=
  backwardAssignAux mem jLast xs.reverse orc n

/-- Infallible backward bulk write (nothrow `backward_move`). -/
def backwardWriteSlots (mem : List (Option α)) (jLast : Nat)
    (xs : List (Option α)) : List (Option α) :=
  writeSlots mem (jLast - xs.length) xs

/-- Dispatch of `backward_move` vs `backward_copy` on the nothrow-move
trait (darray.hpp line 534): an infallible bulk move when moves cannot
throw, a fallible backward copy otherwise. -/
def moveAssignBackwardSlots (mem : List (Option α)) (jLast : Nat)
    (xs : List (Option α)) (tr : Traits) (orc : Oracle) (n : Nat) :
    Except (List (Option α) × Nat) (List (Option α) × Nat) :=
  if tr.nothrowMove then .ok (backwardWriteSlots mem jLast xs, n)
  else backwardAssignSlots mem jLast xs orc n

/-- Forward move-assignment over a range (`expu::move`): infallible when
moves cannot throw, otherwise fallible element-wise assignment. -/
def moveAssignSlots (mem : List (Option α)) (i : Nat)
    (xs : List (Option α)) (tr : Traits) (orc : Oracle) (n : Nat) :
    Except (List (Option α) × Nat) (List (Option α) × Nat) :=
  if tr.nothrowMove then .ok (writeSlots mem i xs, n)
  else assignSlots mem i xs orc n

/-- `_reversible_uninitialised_move` (darray.hpp lines 432-442):
uninitialised-moves when the move constructor cannot throw, else
uninitialised-copies (fallible). -/
def uninitMoveOrCopy (mem : List (Option α)) (i : Nat)
    (xs : List (Option α)) (tr : Traits) (orc : Oracle) (n : Nat) :
    Except (List (Option α) × Nat) (List (Option α) × Nat) :=
  if tr.nothrowMove then .ok (writeSlots mem i xs, n)
  else uninitCopy mem i xs orc n

/-- Modelled from the spec: `copy_until_sentinel` — assigns from the
source into slots `[i, j)` while both the destination window and the
source have elements, returning the unconsumed source suffix. -/
def copyUntilSentinel (mem : List (Option α)) (i j : Nat)
    (xs : List (Option α)) (orc : Oracle) (n : Nat) :
    Except (List (Option α) × Nat)
      (List (Option α) × List (Option α) × Nat) :=
  match xs with
  | [] => .ok (mem, [], n)
  | x :: rest =>
    if i < j then
      if orc n then .error (mem, n + 1)
      else copyUntilSentinel (mem.set i x) (i + 1) j rest orc (n + 1)
    else .ok (mem, x :: rest, n)

/-! ### The container state -/

/-- The `_darray_data` pointer triad (darray.hpp lines 19-35) together
with the contents of the owned block.  `first = 0` plays the role of a
null `first` pointer. -/
structure Darray (α : Type) where
  first : Nat
  last : Nat
  endp : Nat
  mem : List (Option α)
deriving DecidableEq, Repr

namespace Darray

variable {α : Type}

/-- `size() = last - first` (darray.hpp line 716). -/
def size (d : Darray α) : Nat := d.last - d.first

/-- `capacity() = end - first` (darray.hpp line 721). -/
def capacity (d : Darray α) : Nat := d.endp - d.first

/-- `empty() = (last == first)` (darray.hpp line 731). -/
def isEmpty (d : Darray α) : Bool := d.last == d.first

/-- The slots of the live range `[first, last)`. -/
def elems (d : Darray α) : List (Option α) := d.mem.take d.size

/-- Slice of the owned block, block-relative. -/
def readRange (d : Darray α) (i j : Nat) : List (Option α) :=
  sliceRange d.mem i j

/-- The layout invariant of the spec (§3): `start <= usedEnd <=
capacityEnd`, and a null `start` forces null `usedEnd` and
`capacityEnd`. -/
def Inv (d : Darray α) : Prop :=
  d.first ≤ d.last ∧ d.last ≤ d.endp ∧ (d.first = 0 → d.last = 0 ∧ d.endp = 0)

instance (d : Darray α) : Decidable d.Inv := by
  unfold Inv; infer_instance

/-- Well-formedness: the invariant plus the owned block having exactly
`capacity` slots. -/
def WF (d : Darray α) : Prop := d.Inv ∧ d.mem.length = d.capacity

instance (d : Darray α) : Decidable d.WF := by
  unfold WF; infer_instance

/-- A default-constructed darray: all three pointers null. -/
def mkEmpty (α : Type) : Darray α := ⟨0, 0, 0, []⟩

/-- A fully-packed darray holding `xs` (size = capacity = `xs.length`)
whose block lives at address 1. -/
def ofList (xs : List α) : Darray α :=
  ⟨1, 1 + xs.length, 1 + xs.length, xs.map some⟩

/-- `_clear_dealloc` (darray.hpp lines 149-156): destroys the live range
and deallocates the block when `first` is non-null.  Destruction has no
heap effect; only the deallocation is visible here. -/
def clearDealloc (d : Darray α) (h : Heap) : Heap :=
  if d.first = 0 then h else h.dealloc d.first

/-- `erase(first, last)` (darray.hpp lines 288-295): destroys the slots
`[i, j)` and sets the used-end pointer to the start of the erased
window.  `i`, `j` are the block-relative offsets of the two iterators. -/
def erase (d : Darray α) (i j : Nat) : Darray α :=
  { d with mem := destroyRange d.mem i j, last := d.first + i }

end Darray

/-- `_calculate_growth(min_capacity)` (darray.hpp lines 606-616): throws
`bad_array_new_length` when `max_size < min_capacity`; otherwise returns
`max_size` when `max_size - size/2 < size`, else
`max(min_capacity, size + size/2)`. -/
def calculateGrowth (size maxSize minCapacity : Nat) : Except Unit Nat :=
  if maxSize < minCapacity then .error ()
  else if maxSize - (size >>> 1) < size then .ok maxSize
  else .ok (max minCapacity (size + (size >>> 1)))

/-- Modelled from the spec: `_ctg_duplicate`
(`expu/containers/contiguous_container.hpp`, not in the snapshot) —
allocates a block of the given capacity, copy-constructs the range into
it (strong guarantee: on a construction failure it destroys what it had
built and deallocates before rethrowing), and returns the new block's
start address, used-end address and contents. -/
def ctgDuplicate (h : Heap) (rng : List (Option α)) (cap : Nat)
    (orc : Oracle) (n : Nat) :
    Except (Heap × Nat) (Heap × Nat × Nat × List (Option α) × Nat) :=
  let a := (h.alloc cap).1
  let h1 := (h.alloc cap).2
  match uninitCopy (List.replicate cap (none : Option α)) 0 rng orc n with
  | .error (_, n') => .error (h1.dealloc a, n')
  | .ok (m, n') => .ok (h1, a, a + rng.length, m, n')

namespace Darray

variable {α : Type}

/-- `_unallocated_assign(first, last, capacity)` (darray.hpp lines
169-176): duplicates the range into a freshly allocated block and
installs it into a container that owns no block yet.  On failure the
container is left as it was. -/
def unallocatedAssign (d : Darray α) (h : Heap) (rng : List (Option α))
    (cap : Nat) (orc : Oracle) (n : Nat) :
    Except (Heap × Darray α × Nat) (Heap × Darray α × Nat) :=
  match ctgDuplicate h rng cap orc n with
  | .error (h', n') => .error (h', d, n')
  | .ok (h', a, l, m, n') => .ok (h', ⟨a, l, a + cap, m⟩, n')

/-- `darray(const darray& other, const Alloc&)` (darray.hpp lines
79-86): delegates to the allocator constructor (null triad) then
`_unallocated_assign(other.first, other.last, other.capacity())`. -/
def copyCtor (src : Darray α) (h : Heap) (orc : Oracle) (n : Nat) :
    Except (Heap × Darray α × Nat) (Heap × Darray α × Nat) :=
  (mkEmpty α).unallocatedAssign h (src.readRange 0 src.size) src.capacity orc n

/-- The forward-iterator range constructor (darray.hpp lines 139-146):
`_unallocated_assign(first, last, distance(first, last))`. -/
def fwdRangeCtor (h : Heap) (rng : List (Option α)) (orc : Oracle) (n : Nat) :
    Except (Heap × Darray α × Nat) (Heap × Darray α × Nat) :=
  (mkEmpty α).unallocatedAssign h rng rng.length orc n

/-- `darray(darray&&)` (darray.hpp lines 113-120): exchanges the three
pointers of the source with null; the block contents move with them.
Returns `(destination, source after the move)`. -/
def moveCtor (src : Darray α) : Darray α × Darray α :=
  (⟨src.first, src.last, src.endp, src.mem⟩, ⟨0, 0, 0, []⟩)

/-- `_resize_assign(alloc, first, last, new_capacity)` (darray.hpp lines
180-189): duplicates the range into a new block of exactly
`new_capacity`, then `_replace`s the current block with it (the old
block is destroyed and deallocated only after the duplicate succeeds). -/
def resizeAssign (d : Darray α) (h : Heap) (rng : List (Option α))
    (newCap : Nat) (orc : Oracle) (n : Nat) :
    Except (Heap × Darray α × Nat) (Heap × Darray α × Nat) :=
  match ctgDuplicate h rng newCap orc n with
  | .error (h', n') => .error (h', d, n')
  | .ok (h', a, l, m, n') => .ok (d.clearDealloc h', ⟨a, l, a + newCap, m⟩, n')

/-- `_alt_alloc_assign(alt_alloc, first, last)` (darray.hpp lines
196-222), the forward-range assign.  Case 1: not enough capacity —
resize.  Case 2: fits but exceeds size — assign over the live prefix
then uninitialised-copy the rest.  Case 3: fits within size — assign
then destroy the surplus suffix. -/
def altAllocAssign (d : Darray α) (h : Heap) (rng : List (Option α))
    (orc : Oracle) (n : Nat) :
    Except (Heap × Darray α × Nat) (Heap × Darray α × Nat) :=
  let rangeSize := rng.length
  if d.capacity < rangeSize then
    d.resizeAssign h rng rangeSize orc n
  else if d.size < rangeSize then
    match copyUntilSentinel d.mem 0 d.size rng orc n with
    | .error (m1, n1) => .error (h, { d with mem := m1 }, n1)
    | .ok (m1, rest, n1) =>
      match uninitCopy m1 d.size rest orc n1 with
      | .error (m2, n2) => .error (h, { d with mem := m2 }, n2)
      | .ok (m2, n2) =>
        .ok (h, { d with mem := m2, last := d.first + rangeSize }, n2)
  else
    match assignSlots d.mem 0 rng orc n with
    | .error (m1, n1) => .error (h, { d with mem := m1 }, n1)
    | .ok (m1, n1) =>
      .ok (h, { d with mem := destroyRange m1 rangeSize d.size,
                       last := d.first + rangeSize }, n1)

/-- `operator=(const darray& other)` (darray.hpp lines 249-264).  With a
propagating, unequal allocator it assigns from
`[other.first, other.last)` using the incoming allocator (line 254);
every other configuration reaches line 263, which assigns from
`[other.first, other.end)` — the whole block including the
uninitialized tail.  `pocca` models
`propagate_on_container_copy_assignment`, `equalAlloc` models the two
allocators comparing equal (including `is_always_equal`). -/
def copyAssign (dst src : Darray α) (h : Heap) (pocca equalAlloc : Bool)
    (orc : Oracle) (n : Nat) :
    Except (Heap × Darray α × Nat) (Heap × Darray α × Nat) :=
  if pocca && !equalAlloc then
    dst.altAllocAssign h (src.readRange 0 src.size) orc n
  else
    dst.altAllocAssign h (src.readRange 0 src.capacity) orc n

/-- `operator=(darray&& other)` (darray.hpp lines 266-285).  When the
allocator neither propagates on move assignment nor compares equal, the
elements are move-assigned one by one through `assign` and the source
keeps its block; otherwise the destination clears its own block and
steals the source's triad, nulling the source.  Returns
`(heap, destination, source)`. -/
def moveAssign (dst src : Darray α) (h : Heap) (pocma equalAlloc : Bool)
    (orc : Oracle) (n : Nat) :
    Except (Heap × Darray α × Darray α × Nat)
      (Heap × Darray α × Darray α × Nat) :=
  if !pocma && !equalAlloc then
    match dst.altAllocAssign h (src.readRange 0 src.size) orc n with
    | .error (h', d', n') => .error (h', d', src, n')
    | .ok (h', d', n') => .ok (h', d', src, n')
  else
    .ok (dst.clearDealloc h, ⟨src.first, src.last, src.endp, src.mem⟩,
         ⟨0, 0, 0, []⟩, n)

/-- `u_emplace_back` (darray.hpp lines 299-311): constructs a new
element in the slot at `last` and bumps `last`; precondition
`last != end`.  `fallible` is `false` when the construction is a
nothrow move (which also does not tick the oracle). -/
def uEmplaceBack (d : Darray α) (xv : Option α) (fallible : Bool)
    (orc : Oracle) (n : Nat) :
    Except (Darray α × Nat) (Darray α × Nat) :=
  if fallible then
    if orc n then .error (d, n + 1)
    else .ok ({ d with mem := d.mem.set d.size xv, last := d.last + 1 }, n + 1)
  else .ok ({ d with mem := d.mem.set d.size xv, last := d.last + 1 }, n)

/-- The spare-capacity branch of `emplace` (darray.hpp lines 330-369).
At the end position this is `u_emplace_back`.  Otherwise: move (or copy)
the last element one past the end, backward-shift `[at, last-1)` up by
one, destroy the vacated slot and construct the new element there; on a
construction failure, try to move the displaced element back, and if
even that fails truncate the container at `at`. -/
def emplaceWithCapacity (d : Darray α) (h : Heap) (atOff : Nat)
    (xv : Option α) (tr : Traits) (orc : Oracle) (n : Nat) :
    Except (Heap × Darray α × Nat) (Heap × Darray α × Nat × Nat) :=
  if atOff = d.size then
    match d.uEmplaceBack xv true orc n with
    | .error (d', n') => .error (h, d', n')
    | .ok (d', n') => .ok (h, d', n', d.first + atOff)
  else
    -- u_emplace_back(std::move(*before_last)) or the copying fallback
    match d.uEmplaceBack (d.mem.getD (d.size - 1) none) (!tr.nothrowMove)
        orc n with
    | .error (d', n') => .error (h, d', n')
    | .ok (d1, n1) =>
      -- backward_move(naked_at, before_last, std::next(before_last))
      match moveAssignBackwardSlots d1.mem d.size
          (sliceRange d1.mem atOff (d.size - 1)) tr orc n1 with
      | .error (m2, n2) =>
        -- move assignment threw; nothing catches it here
        .error (h, { d1 with mem := m2 }, n2)
      | .ok (m2, n2) =>
        -- destroy *naked_at, then construct the new element there
        let m3 := m2.set atOff (none : Option α)
        if orc n2 then
          -- construction failed; try to move the shifted element back
          if !tr.nothrowMove && orc (n2 + 1) then
            -- secondary failure: destroy [post_at, last), truncate at.
            .error (h, { d1 with
              mem := destroyRange m3 (atOff + 1) (d.size + 1),
              last := d.first + atOff }, n2 + 2)
          else
            -- recovery: move [post_at+1, last) back down one slot,
            -- destroy the now-duplicated last slot, shrink by one.
            let pv := m3.getD (atOff + 1) none
            let m4 := m3.set atOff pv
            match moveAssignSlots m4 (atOff + 1)
                (sliceRange m4 (atOff + 2) (d.size + 1)) tr orc
                (if !tr.nothrowMove then n2 + 2 else n2 + 1) with
            | .error (m5, n5) =>
              -- move assignment threw during the shift back; uncaught
              .error (h, { d1 with mem := m5 }, n5)
            | .ok (m5, n5) =>
              .error (h, { d1 with mem := m5.set d.size none,
                                   last := d.last }, n5)
        else
          .ok (h, { d1 with mem := m3.set atOff xv }, n2 + 1,
               d.first + atOff)

/-- The reallocating branch of `emplace` (darray.hpp lines 371-410):
grow geometrically, construct the new element at its final position in
the new block first, then migrate the prefix and suffix around it; any
failure destroys what was built in the new block, frees it and leaves
the container untouched. -/
def emplaceRealloc (d : Darray α) (h : Heap) (atOff : Nat) (xv : Option α)
    (tr : Traits) (orc : Oracle) (n : Nat) :
    Except (Heap × Darray α × Nat) (Heap × Darray α × Nat × Nat) :=
  match calculateGrowth d.size tr.maxSize (d.capacity + 1) with
  | .error _ => .error (h, d, n)
  | .ok newCap =>
    let a := (h.alloc newCap).1
    let h1 := (h.alloc newCap).2
    -- construct the element at construct_at = new_first + atOff first
    if orc n then .error (h1.dealloc a, d, n + 1)
    else
      let nm0 := (List.replicate newCap (none : Option α)).set atOff xv
      if atOff = d.size then
        -- naked_at == last: migrate the whole live range to new_first
        match uninitMoveOrCopy nm0 0 (d.readRange 0 d.size) tr orc (n + 1) with
        | .error (_, n') => .error (h1.dealloc a, d, n')
        | .ok (nm1, n') =>
          .ok (d.clearDealloc h1, ⟨a, a + (d.size + 1), a + newCap, nm1⟩,
               n', a + atOff)
      else
        -- migrate the prefix, skip the constructed slot, migrate suffix
        match uninitMoveOrCopy nm0 0 (d.readRange 0 atOff) tr orc (n + 1) with
        | .error (_, n') => .error (h1.dealloc a, d, n')
        | .ok (nm1, n1) =>
          match uninitMoveOrCopy nm1 (atOff + 1)
              (d.readRange atOff d.size) tr orc n1 with
          | .error (_, n') => .error (h1.dealloc a, d, n')
          | .ok (nm2, n') =>
            .ok (d.clearDealloc h1, ⟨a, a + (d.size + 1), a + newCap, nm2⟩,
                 n', a + atOff)

/-- `emplace(at, args...)` (darray.hpp lines 325-412): the in-place
branch when spare capacity exists, the reallocating branch otherwise.
On success returns the heap, the new state, the oracle counter and the
address of the inserted element. -/
def emplace (d : Darray α) (h : Heap) (atOff : Nat) (xv : Option α)
    (tr : Traits) (orc : Oracle) (n : Nat) :
    Except (Heap × Darray α × Nat) (Heap × Darray α × Nat × Nat) :=
  if d.last ≠ d.endp then d.emplaceWithCapacity h atOff xv tr orc n
  else d.emplaceRealloc h atOff xv tr orc n

/-- `emplace_back(args...)` (darray.hpp lines 414-418):
`emplace(cend(), args...)`. -/
def emplaceBack (d : Darray α) (h : Heap) (xv : Option α) (tr : Traits)
    (orc : Oracle) (n : Nat) :
    Except (Heap × Darray α × Nat) (Heap × Darray α × Nat × Nat) :=
  d.emplace h d.size xv tr orc n

end Darray

/-- The `for (; first != last; ++first) emplace_back(*first)` loops
(darray.hpp lines 135-136, 242-243, 454-455). -/
def appendAll (d : Darray α) (h : Heap) (src : List (Option α))
    (tr : Traits) (orc : Oracle) (n : Nat) :
    Except (Heap × Darray α × Nat) (Heap × Darray α × Nat) :=
  match src with
  | [] => .ok (h, d, n)
  | x :: rest =>
    match d.emplaceBack h x tr orc n with
    | .error e => .error e
    | .ok (h', d', n', _) => appendAll d' h' rest tr orc n'

/-- The net permutation effect of `std::rotate(f, m, l)` (an external
library call): the range `[f, l)` becomes `[m, l)` followed by
`[f, m)`.  Indices are block-relative. -/
def rotateRange (mem : List (Option α)) (f m l : Nat) : List (Option α) :=
  mem.take f ++ sliceRange mem m l ++ sliceRange mem f m ++ mem.drop l

namespace Darray

variable {α : Type}

/-- The single-pass (input-iterator) `insert` overload (darray.hpp lines
445-468): append every source element through `emplace_back`, then
rotate the appended run into position unless the insertion point was the
end. -/
def insertInput (d : Darray α) (h : Heap) (atOff : Nat)
    (src : List (Option α)) (tr : Traits) (orc : Oracle) (n : Nat) :
    Except (Heap × Darray α × Nat) (Heap × Darray α × Nat) :=
  let atIndex := atOff
  let prevSize := d.size
  match appendAll d h src tr orc n with
  | .error e => .error e
  | .ok (h', d', n') =>
    if atIndex ≠ prevSize then
      .ok (h', { d' with mem := rotateRange d'.mem atIndex prevSize d'.size },
           n')
    else .ok (h', d', n')

/-- The input-iterator range constructor (darray.hpp lines 128-137):
start from the null triad and `emplace_back` every element. -/
def inputRangeCtor (h : Heap) (src : List (Option α)) (tr : Traits)
    (orc : Oracle) (n : Nat) :
    Except (Heap × Darray α × Nat) (Heap × Darray α × Nat) :=
  appendAll (mkEmpty α) h src tr orc n

/-- The input-iterator `assign` overload, case 4 (darray.hpp lines
233-246): overwrite while both sides have elements, destroy the
destination's surplus suffix, then append the remaining source
elements. -/
def assignInput (d : Darray α) (h : Heap) (src : List (Option α))
    (tr : Traits) (orc : Oracle) (n : Nat) :
    Except (Heap × Darray α × Nat) (Heap × Darray α × Nat) :=
  match copyUntilSentinel d.mem 0 d.size src orc n with
  | .error (m1, n1) => .error (h, { d with mem := m1 }, n1)
  | .ok (m1, rest, n1) =>
    let consumed := src.length - rest.length
    let d1 : Darray α :=
      { d with mem := destroyRange m1 consumed d.size,
               last := d.first + consumed }
    appendAll d1 h rest tr orc n1

/-- The reallocating branch of the forward-iterator `insert` (darray.hpp
lines 486-515): grow, copy the incoming range to its final position in
the new block first, then migrate the original prefix and suffix around
it; any failure unwinds the new block and leaves the container
untouched. -/
def insertFwdRealloc (d : Darray α) (h : Heap) (atOff : Nat)
    (src : List (Option α)) (tr : Traits) (orc : Oracle) (n : Nat) :
    Except (Heap × Darray α × Nat) (Heap × Darray α × Nat) :=
  match calculateGrowth d.size tr.maxSize (d.size + src.length) with
  | .error _ => .error (h, d, n)
  | .ok newCap =>
    let a := (h.alloc newCap).1
    let h1 := (h.alloc newCap).2
    let nm0 := List.replicate newCap (none : Option α)
    match uninitCopy nm0 atOff src orc n with
    | .error (_, n1) => .error (h1.dealloc a, d, n1)
    | .ok (nm1, n1) =>
      match uninitMoveOrCopy nm1 0 (d.readRange 0 atOff) tr orc n1 with
      | .error (_, n2) => .error (h1.dealloc a, d, n2)
      | .ok (nm2, n2) =>
        match uninitMoveOrCopy nm2 (atOff + src.length)
            (d.readRange atOff d.size) tr orc n2 with
        | .error (_, n3) => .error (h1.dealloc a, d, n3)
        | .ok (nm3, n3) =>
          .ok (d.clearDealloc h1,
               ⟨a, a + (d.size + src.length), a + newCap, nm3⟩, n3)

/-- The in-capacity branch of the forward `insert` when the incoming
range is smaller than the shift distance (darray.hpp lines 527-567):
move the last `range_size` elements into uninitialized space, backward
shift the rest by assignment, then assign the incoming values into the
vacated window. -/
def insertFwdShiftSmall (d : Darray α) (h : Heap) (atOff : Nat)
    (src : List (Option α)) (tr : Traits) (orc : Oracle) (n : Nat) :
    Except (Heap × Darray α × Nat) (Heap × Darray α × Nat) :=
  let usb := d.size - src.length
  let newLastOff := d.size + src.length
  match uninitMoveOrCopy d.mem d.size (d.readRange usb d.size) tr orc n with
  | .error (m1, n1) =>
    -- uncaught: the primitive rolled back its own constructions
    .error (h, { d with mem := m1 }, n1)
  | .ok (m1, n1) =>
    match moveAssignBackwardSlots m1 d.size (sliceRange m1 atOff usb)
        tr orc n1 with
    | .error (m2, n2) =>
      -- catch: move the saved tail back, else keep it live (weak)
      match moveAssignSlots m2 usb (sliceRange m2 d.size newLastOff)
          tr orc n2 with
      | .error (m3, n3) =>
        .error (h, { d with mem := m3, last := d.first + newLastOff }, n3)
      | .ok (m3, n3) =>
        .error (h, { d with mem := destroyRange m3 d.size newLastOff }, n3)
    | .ok (m2, n2) =>
      match assignSlots m2 atOff src orc n2 with
      | .error (m3, n3) =>
        -- catch: shift back from insert_end, else keep the tail (weak)
        match moveAssignSlots m3 atOff
            (sliceRange m3 (atOff + src.length) newLastOff) tr orc n3 with
        | .error (m4, n4) =>
          .error (h, { d with mem := m4, last := d.first + newLastOff }, n4)
        | .ok (m4, n4) =>
          .error (h, { d with mem := destroyRange m4 d.size newLastOff }, n4)
      | .ok (m3, n3) =>
        .ok (h, { d with mem := m3, last := d.first + newLastOff }, n3)

/-- The in-capacity branch of the forward `insert` when the incoming
range overlaps the uninitialized space (darray.hpp lines 568-586): move
the whole suffix `[at, last)` up to `at + range_size`, assign as much of
the source as fits below the old end, and uninitialised-copy the rest. -/
def insertFwdShiftLarge (d : Darray α) (h : Heap) (atOff : Nat)
    (src : List (Option α)) (tr : Traits) (orc : Oracle) (n : Nat) :
    Except (Heap × Darray α × Nat) (Heap × Darray α × Nat) :=
  let usd := atOff + src.length
  let newLastOff := d.size + src.length
  match uninitMoveOrCopy d.mem usd (d.readRange atOff d.size) tr orc n with
  | .error (m1, n1) => .error (h, { d with mem := m1 }, n1)
  | .ok (m1, n1) =>
    match copyUntilSentinel m1 atOff d.size src orc n1 with
    | .error (m2, n2) =>
      -- catch: try to move the suffix back (failure swallowed), then
      -- destroy the moved suffix and rethrow
      match moveAssignSlots m2 atOff (sliceRange m2 usd newLastOff)
          tr orc n2 with
      | .error (m3, n3) =>
        .error (h, { d with mem := destroyRange m3 usd newLastOff }, n3)
      | .ok (m3, n3) =>
        .error (h, { d with mem := destroyRange m3 usd newLastOff }, n3)
    | .ok (m2, rest, n2) =>
      match uninitCopy m2 d.size rest orc n2 with
      | .error (m3, n3) =>
        match moveAssignSlots m3 atOff (sliceRange m3 usd newLastOff)
            tr orc n3 with
        | .error (m4, n4) =>
          .error (h, { d with mem := destroyRange m4 usd newLastOff }, n4)
        | .ok (m4, n4) =>
          .error (h, { d with mem := destroyRange m4 usd newLastOff }, n4)
      | .ok (m3, n3) =>
        .ok (h, { d with mem := m3, last := d.first + newLastOff }, n3)

/-- The forward-iterator `insert` overload (darray.hpp lines 470-590).
An empty incoming range is a no-op (line 484); otherwise dispatch on
whether the unused capacity holds the range, and within capacity on
whether the range is smaller than the shift distance. -/
def insertFwd (d : Darray α) (h : Heap) (atOff : Nat)
    (src : List (Option α)) (tr : Traits) (orc : Oracle) (n : Nat) :
    Except (Heap × Darray α × Nat) (Heap × Darray α × Nat) :=
  let rangeSize := src.length
  let unusedCapacity := d.endp - d.last
  if rangeSize = 0 then .ok (h, d, n)
  else if unusedCapacity < rangeSize then
    d.insertFwdRealloc h atOff src tr orc n
  else if rangeSize < d.size - atOff then
    d.insertFwdShiftSmall h atOff src tr orc n
  else
    d.insertFwdShiftLarge h atOff src tr orc n

/-- `_unchecked_grow_exactly(new_capacity)` (darray.hpp lines 593-604).
With a nothrow move constructor: allocate, move the live range, replace.
Otherwise it falls back to
`_resize_assign(_alloc(), _data().first, _data().end, new_capacity)` —
note the source range runs to `end`, the whole block including the
uninitialized tail. -/
def uncheckedGrowExactly (d : Darray α) (h : Heap) (newCap : Nat)
    (tr : Traits) (orc : Oracle) (n : Nat) :
    Except (Heap × Darray α × Nat) (Heap × Darray α × Nat) :=
  if tr.nothrowMove then
    let a := (h.alloc newCap).1
    let h1 := (h.alloc newCap).2
    let nm := writeSlots (List.replicate newCap (none : Option α)) 0
      (d.readRange 0 d.size)
    .ok (d.clearDealloc h1, ⟨a, a + d.size, a + newCap, nm⟩, n)
  else
    d.resizeAssign h (d.readRange 0 d.capacity) newCap orc n

/-- `reserve(size)` (darray.hpp lines 624-628): grow to exactly the
requested capacity when it exceeds the current one, else do nothing. -/
def reserve (d : Darray α) (h : Heap) (newCap : Nat) (tr : Traits)
    (orc : Oracle) (n : Nat) :
    Except (Heap × Darray α × Nat) (Heap × Darray α × Nat) :=
  if d.capacity < newCap then d.uncheckedGrowExactly h newCap tr orc n
  else .ok (h, d, n)

/-- `shrink_to_fit()` (darray.hpp lines 630-648): when `last != end`,
reallocate to exactly `size` and migrate; on a migration failure the new
block is deallocated and the container untouched. -/
def shrinkToFit (d : Darray α) (h : Heap) (tr : Traits) (orc : Oracle)
    (n : Nat) :
    Except (Heap × Darray α × Nat) (Heap × Darray α × Nat) :=
  if d.last ≠ d.endp then
    let a := (h.alloc d.size).1
    let h1 := (h.alloc d.size).2
    match uninitMoveOrCopy (List.replicate d.size (none : Option α)) 0
        (d.readRange 0 d.size) tr orc n with
    | .error (_, n') => .error (h1.dealloc a, d, n')
    | .ok (nm, n') =>
      .ok (d.clearDealloc h1, ⟨a, a + d.size, a + d.size, nm⟩, n')
  else .ok (h, d, n)

/-- `unchecked_front()` (darray.hpp lines 663-672): `*first`. -/
def uncheckedFront (d : Darray α) : Option α := d.mem.getD 0 none

/-- `unchecked_back()` (darray.hpp lines 675-684): `*prev(last)`. -/
def uncheckedBack (d : Darray α) : Option α := d.mem.getD (d.size - 1) none

/-- Checked `front()` (darray.hpp lines 686-697): throws `out_of_range`
on an empty container. -/
def front (d : Darray α) : Except Unit (Option α) :=
  if !d.isEmpty then .ok d.uncheckedFront else .error ()

/-- Checked `back()` (darray.hpp lines 699-710): throws `out_of_range`
on an empty container. -/
def back (d : Darray α) : Except Unit (Option α) :=
  if !d.isEmpty then .ok d.uncheckedBack else .error ()

end Darray

/-- The layout invariant holds for the resulting container in either
outcome of an operation returning `Heap × Darray × Nat`. -/
def invOutcome3 {α : Type}
    (r : Except (Heap × Darray α × Nat) (Heap × Darray α × Nat)) : Prop :=
  match r with
  | .ok (_, d, _) => d.Inv
  | .error (_, d, _) => d.Inv

/-- As `invOutcome3`, for `emplace` (whose success also carries the
returned iterator address). -/
def invOutcome4 {α : Type}
    (r : Except (Heap × Darray α × Nat) (Heap × Darray α × Nat × Nat)) :
    Prop :=
  match r with
  | .ok (_, d, _, _) => d.Inv
  | .error (_, d, _) => d.Inv

/-- As `invOutcome3`, for `moveAssign` (which returns destination and
source). -/
def invOutcomePair {α : Type}
    (r : Except (Heap × Darray α × Darray α × Nat)
      (Heap × Darray α × Darray α × Nat)) : Prop :=
  match r with
  | .ok (_, d, s, _) => d.Inv ∧ s.Inv
  | .error (_, d, s, _) => d.Inv ∧ s.Inv

/-- The invariant holds for the container of an `uEmplaceBack`
outcome. -/
def invOutcomeU {α : Type}
    (r : Except (Darray α × Nat) (Darray α × Nat)) : Prop :=
  match r with
  | .ok (d, _) => d.Inv
  | .error (d, _) => d.Inv

/-- The contract of the single-pass `insert` in the spec's words: a
success yields exactly the original sequence with the source spliced in
at the insertion index; a failure leaves the original elements followed
by the successfully appended prefix of the source — no live element
duplicated or lost. -/
def insertInputSpec {α : Type} (base src : List α) (atOff : Nat)
    (r : Except (Heap × Darray α × Nat) (Heap × Darray α × Nat)) : Prop :=
  match r with
  | .ok (_, d', _) =>
    d'.elems = (base.take atOff ++ src ++ base.drop atOff).map some ∧
    d'.size = base.length + src.length
  | .error (_, d', _) =>
    ∃ k, k ≤ src.length ∧ d'.elems = (base ++ src.take k).map some

/-! ### Heap lemmas -/

theorem Heap.fresh_pos (h : Heap) : 0 < h.fresh := Nat.succ_pos _

theorem Heap.mem_lt_fresh (h : Heap) : ∀ b ∈ h.blocks, b.1 < h.fresh := by
  have key : ∀ (l : List (Nat × Nat)) (b : Nat × Nat), b ∈ l →
      b.1 + b.2 ≤ l.foldr (fun b m => max (b.1 + b.2) m) 0 := by
    intro l
    induction l with
    | nil => intro b hb; cases hb
    | cons a t ih =>
      intro b hb
      rcases List.mem_cons.mp hb with hb | hb
      · subst hb; exact Nat.le_max_left _ _
      · exact le_trans (ih b hb) (Nat.le_max_right _ _)
  intro b hb
  have := key h.blocks b hb
  unfold Heap.fresh
  omega

theorem Heap.alloc_fst_pos (h : Heap) (n : Nat) : 0 < (h.alloc n).1 :=
  h.fresh_pos

/-- Deallocating a freshly allocated block restores the heap. -/
theorem Heap.dealloc_alloc (h : Heap) (n : Nat) :
    ((h.alloc n).2).dealloc (h.alloc n).1 = h := by
  unfold Heap.alloc Heap.dealloc
  have hlt := h.mem_lt_fresh
  cases h with
  | mk bs =>
    simp only [List.filter_append]
    congr 1
    rw [List.filter_eq_self.mpr, List.filter_cons, List.filter_nil]
    · simp
    · intro b hb
      have : b.1 < Heap.fresh ⟨bs⟩ := hlt b hb
      simp only [decide_eq_true_eq, ne_eq]
      omega

/-! ### Range-primitive lemmas -/

theorem sliceRange_length (mem : List (Option α)) (i j : Nat) :
    (sliceRange mem i j).length = min (j - i) (mem.length - i) := by
  simp [sliceRange]

theorem writeSlots_length (xs : List (Option α)) :
    ∀ (mem : List (Option α)) (i : Nat),
      (writeSlots mem i xs).length = mem.length := by
  induction xs with
  | nil => intro mem i; rfl
  | cons x rest ih =>
    intro mem i
    rw [writeSlots, ih, List.length_set]

/-- `take (i+1)` of a list with slot `i` just set. -/
theorem take_set_succ (l : List (Option α)) (i : Nat) (x : Option α)
    (h : i < l.length) :
    (l.set i x).take (i + 1) = l.take i ++ [x] := by
  rw [List.set_eq_take_cons_drop x h, List.take_append_eq_append_take,
    List.take_take]
  have hti : (l.take i).length = i := List.length_take_of_le (le_of_lt h)
  simp [hti, min_self]

theorem writeSlots_eq (xs : List (Option α)) :
    ∀ (mem : List (Option α)) (i : Nat), i + xs.length ≤ mem.length →
      writeSlots mem i xs = mem.take i ++ xs ++ mem.drop (i + xs.length) := by
  induction xs with
  | nil =>
    intro mem i h
    simp [writeSlots, List.take_append_drop]
  | cons x rest ih =>
    intro mem i h
    have hi : i < mem.length := by simp at h; omega
    rw [writeSlots, ih _ (i + 1) (by rw [List.length_set]; simp at h ⊢; omega)]
    rw [take_set_succ mem i x hi, List.drop_set_of_lt x mem (by omega)]
    have harith : i + 1 + rest.length = i + (x :: rest).length := by
      simp
      omega
    rw [harith]
    simp [List.append_assoc]

theorem destroyRange_length (mem : List (Option α)) (i j : Nat) :
    (destroyRange mem i j).length = mem.length := by
  simp [destroyRange]

theorem uninitCopy_length (xs : List (Option α)) :
    ∀ (mem : List (Option α)) (i n : Nat),
      (∀ m' n', uninitCopy mem i xs orc n = .ok (m', n') →
        m'.length = mem.length) ∧
      (∀ m' n', uninitCopy mem i xs orc n = .error (m', n') →
        m'.length = mem.length) := by
  induction xs with
  | nil =>
    intro mem i n
    constructor
    · intro m' n' h
      cases h
      rfl
    · intro m' n' h
      cases h
  | cons x rest ih =>
    intro mem i n
    constructor
    · intro m' n' h
      rw [uninitCopy] at h
      by_cases horc : orc n = true
      · simp [horc] at h
      · simp only [horc, if_false, Bool.false_eq_true] at h
        cases hrec : uninitCopy (mem.set i x) (i + 1) rest orc (n + 1) with
        | ok r =>
          obtain ⟨m₀, n₀⟩ := r
          rw [hrec] at h
          simp only [Except.ok.injEq, Prod.mk.injEq] at h
          obtain ⟨h1, h2⟩ := h
          subst h1
          have := ((ih (mem.set i x) (i + 1) (n + 1)).1) m₀ n₀ hrec
          rw [this, List.length_set]
        | error e =>
          rw [hrec] at h
          simp at h
    · intro m' n' h
      rw [uninitCopy] at h
      by_cases horc : orc n = true
      · simp only [horc, if_true] at h
        simp only [Except.error.injEq, Prod.mk.injEq] at h
        obtain ⟨h1, h2⟩ := h
        subst h1
        rfl
      · simp only [horc, if_false, Bool.false_eq_true] at h
        cases hrec : uninitCopy (mem.set i x) (i + 1) rest orc (n + 1) with
        | ok r =>
          rw [hrec] at h
          simp at h
        | error e =>
          obtain ⟨m₀, n₀⟩ := e
          rw [hrec] at h
          simp only [Except.error.injEq, Prod.mk.injEq] at h
          obtain ⟨h1, h2⟩ := h
          subst h1
          have := ((ih (mem.set i x) (i + 1) (n + 1)).2) m₀ n₀ hrec
          rw [List.length_set, this, List.length_set]

theorem uninitCopy_ok_eq (xs : List (Option α)) :
    ∀ (mem : List (Option α)) (i n : Nat) (m' : List (Option α)) (n' : Nat),
      uninitCopy mem i xs orc n = .ok (m', n') →
      m' = writeSlots mem i xs ∧ n' = n + xs.length := by
  induction xs with
  | nil =>
    intro mem i n m' n' h
    cases h
    exact ⟨rfl, rfl⟩
  | cons x rest ih =>
    intro mem i n m' n' h
    rw [uninitCopy] at h
    by_cases horc : orc n = true
    · simp [horc] at h
    · simp only [horc, if_false, Bool.false_eq_true] at h
      cases hrec : uninitCopy (mem.set i x) (i + 1) rest orc (n + 1) with
      | ok r =>
        obtain ⟨m₀, n₀⟩ := r
        rw [hrec] at h
        simp only [Except.ok.injEq, Prod.mk.injEq] at h
        obtain ⟨h1, h2⟩ := h
        subst h1
        subst h2
        have := ih (mem.set i x) (i + 1) (n + 1) m₀ n₀ hrec
        rw [writeSlots]
        exact ⟨this.1, by rw [this.2]; simp; omega⟩
      | error e =>
        rw [hrec] at h
        simp at h

theorem assignSlots_length (xs : List (Option α)) :
    ∀ (mem : List (Option α)) (i n : Nat),
      (∀ m' n', assignSlots mem i xs orc n = .ok (m', n') →
        m'.length = mem.length) ∧
      (∀ m' n', assignSlots mem i xs orc n = .error (m', n') →
        m'.length = mem.length) := by
  induction xs with
  | nil =>
    intro mem i n
    refine ⟨fun m' n' h => by cases h; rfl, fun m' n' h => by cases h⟩
  | cons x rest ih =>
    intro mem i n
    constructor
    · intro m' n' h
      rw [assignSlots] at h
      split at h
      · cases h
      · have := ((ih (mem.set i x) (i + 1) (n + 1)).1) m' n' h
        rw [this, List.length_set]
    · intro m' n' h
      rw [assignSlots] at h
      split at h
      · cases h
        rfl
      · have := ((ih (mem.set i x) (i + 1) (n + 1)).2) m' n' h
        rw [this, List.length_set]

theorem assignSlots_ok_eq (xs : List (Option α)) :
    ∀ (mem : List (Option α)) (i n : Nat) (m' : List (Option α)) (n' : Nat),
      assignSlots mem i xs orc n = .ok (m', n') →
      m' = writeSlots mem i xs := by
  induction xs with
  | nil =>
    intro mem i n m' n' h
    cases h
    rfl
  | cons x rest ih =>
    intro mem i n m' n' h
    rw [assignSlots] at h
    split at h
    · cases h
    · exact ih (mem.set i x) (i + 1) (n + 1) m' n' h

theorem backwardAssignAux_length (rxs : List (Option α)) :
    ∀ (mem : List (Option α)) (jLast n : Nat),
      (∀ m' n', backwardAssignAux mem jLast rxs orc n = .ok (m', n') →
        m'.length = mem.length) ∧
      (∀ m' n', backwardAssignAux mem jLast rxs orc n = .error (m', n') →
        m'.length = mem.length) := by
  induction rxs with
  | nil =>
    intro mem jLast n
    refine ⟨fun m' n' h => by cases h; rfl, fun m' n' h => by cases h⟩
  | cons x rest ih =>
    intro mem jLast n
    constructor
    · intro m' n' h
      rw [backwardAssignAux] at h
      split at h
      · cases h
      · have := ((ih (mem.set (jLast - 1) x) (jLast - 1) (n + 1)).1) m' n' h
        rw [this, List.length_set]
    · intro m' n' h
      rw [backwardAssignAux] at h
      split at h
      · cases h
        rfl
      · have := ((ih (mem.set (jLast - 1) x) (jLast - 1) (n + 1)).2) m' n' h
        rw [this, List.length_set]

theorem copyUntilSentinel_spec (xs : List (Option α)) :
    ∀ (mem : List (Option α)) (i j n : Nat),
      (∀ m' rest n', copyUntilSentinel mem i j xs orc n = .ok (m', rest, n') →
        m'.length = mem.length ∧ rest.length ≤ xs.length ∧
        xs.length - rest.length ≤ j - i) ∧
      (∀ m' n', copyUntilSentinel mem i j xs orc n = .error (m', n') →
        m'.length = mem.length) := by
  induction xs with
  | nil =>
    intro mem i j n
    refine ⟨fun m' rest n' h => by cases h; exact ⟨rfl, by simp, by simp⟩,
      fun m' n' h => by cases h⟩
  | cons x rest ih =>
    intro mem i j n
    constructor
    · intro m' rs n' h
      rw [copyUntilSentinel] at h
      split at h
      · split at h
        · cases h
        · have := ((ih (mem.set i x) (i + 1) j (n + 1)).1) m' rs n' h
          rw [List.length_set] at this
          refine ⟨this.1, by simp; omega, ?_⟩
          have h2 := this.2.2
          rename_i hij _
          simp only [List.length_cons]
          omega
      · cases h
        exact ⟨rfl, le_refl _, by omega⟩
    · intro m' n' h
      rw [copyUntilSentinel] at h
      split at h
      · split at h
        · cases h
          rfl
        · have := ((ih (mem.set i x) (i + 1) j (n + 1)).2) m' n' h
          rw [this, List.length_set]
      · cases h

theorem uninitMoveOrCopy_length (mem : List (Option α)) (i : Nat)
    (xs : List (Option α)) (tr : Traits) (orc : Oracle) (n : Nat) :
    (∀ m' n', uninitMoveOrCopy mem i xs tr orc n = .ok (m', n') →
      m'.length = mem.length) ∧
    (∀ m' n', uninitMoveOrCopy mem i xs tr orc n = .error (m', n') →
      m'.length = mem.length) := by
  unfold uninitMoveOrCopy
  split
  · refine ⟨fun m' n' h => by cases h; exact writeSlots_length xs mem i,
      fun m' n' h => by cases h⟩
  · exact ⟨fun m' n' h => (uninitCopy_length xs mem i n).1 m' n' h,
      fun m' n' h => (uninitCopy_length xs mem i n).2 m' n' h⟩

theorem uninitMoveOrCopy_ok_eq (mem : List (Option α)) (i : Nat)
    (xs : List (Option α)) (tr : Traits) (orc : Oracle) (n : Nat)
    (m' : List (Option α)) (n' : Nat)
    (h : uninitMoveOrCopy mem i xs tr orc n = .ok (m', n')) :
    m' = writeSlots mem i xs := by
  unfold uninitMoveOrCopy at h
  split at h
  · cases h
    rfl
  · exact ((uninitCopy_ok_eq xs mem i n m' n') h).1

theorem moveAssignSlots_length (mem : List (Option α)) (i : Nat)
    (xs : List (Option α)) (tr : Traits) (orc : Oracle) (n : Nat) :
    (∀ m' n', moveAssignSlots mem i xs tr orc n = .ok (m', n') →
      m'.length = mem.length) ∧
    (∀ m' n', moveAssignSlots mem i xs tr orc n = .error (m', n') →
      m'.length = mem.length) := by
  unfold moveAssignSlots
  split
  · refine ⟨fun m' n' h => by cases h; exact writeSlots_length xs mem i,
      fun m' n' h => by cases h⟩
  · exact ⟨fun m' n' h => (assignSlots_length xs mem i n).1 m' n' h,
      fun m' n' h => (assignSlots_length xs mem i n).2 m' n' h⟩

theorem moveAssignBackwardSlots_length (mem : List (Option α)) (jLast : Nat)
    (xs : List (Option α)) (tr : Traits) (orc : Oracle) (n : Nat) :
    (∀ m' n', moveAssignBackwardSlots mem jLast xs tr orc n = .ok (m', n') →
      m'.length = mem.length) ∧
    (∀ m' n', moveAssignBackwardSlots mem jLast xs tr orc n = .error (m', n') →
      m'.length = mem.length) := by
  unfold moveAssignBackwardSlots backwardAssignSlots backwardWriteSlots
  split
  · refine ⟨fun m' n' h => by cases h; exact writeSlots_length ..,
      fun m' n' h => by cases h⟩
  · exact ⟨fun m' n' h =>
      (backwardAssignAux_length xs.reverse mem jLast n).1 m' n' h,
      fun m' n' h => (backwardAssignAux_length xs.reverse mem jLast n).2 m' n' h⟩

/-- Every outcome of `uninitMoveOrCopy`: success always produces the
bulk write, failure preserves the block length and can only happen for
a throwing-move type. -/
theorem uninitMoveOrCopy_cases (mem : List (Option α)) (i : Nat)
    (xs : List (Option α)) (tr : Traits) (orc : Oracle) (n : Nat) :
    (∃ m' n', uninitMoveOrCopy mem i xs tr orc n = .error (m', n') ∧
      m'.length = mem.length ∧ tr.nothrowMove = false) ∨
    (∃ n', uninitMoveOrCopy mem i xs tr orc n =
      .ok (writeSlots mem i xs, n')) := by
  cases hr : uninitMoveOrCopy mem i xs tr orc n with
  | ok r =>
    right
    obtain ⟨m', n'⟩ := r
    have := uninitMoveOrCopy_ok_eq mem i xs tr orc n m' n' hr
    exact ⟨n', by rw [← this]⟩
  | error e =>
    left
    obtain ⟨m', n'⟩ := e
    refine ⟨m', n', rfl, (uninitMoveOrCopy_length mem i xs tr orc n).2 m' n' hr, ?_⟩
    unfold uninitMoveOrCopy at hr
    by_cases hmv : tr.nothrowMove = true
    · rw [if_pos hmv] at hr
      cases hr
    · simp [hmv]

/-- Every outcome of `ctgDuplicate`: on failure the heap is restored
(the fresh block is deallocated); on success the fresh block holds the
copied range. -/
theorem ctgDuplicate_cases (h : Heap) (rng : List (Option α)) (cap : Nat)
    (orc : Oracle) (n : Nat) :
    (∃ n', ctgDuplicate h rng cap orc n = .error (h, n')) ∨
    (∃ n', ctgDuplicate h rng cap orc n =
      .ok ((h.alloc cap).2, (h.alloc cap).1, (h.alloc cap).1 + rng.length,
           writeSlots (List.replicate cap none) 0 rng, n')) := by
  unfold ctgDuplicate
  cases hrec : uninitCopy (List.replicate cap (none : Option α)) 0 rng orc n with
  | ok r =>
    right
    obtain ⟨m, n'⟩ := r
    have := uninitCopy_ok_eq rng _ 0 n m n' hrec
    exact ⟨n', by simp [this.1]⟩
  | error e =>
    left
    exact ⟨e.2, by simp [Heap.dealloc_alloc]⟩

/-! ### Growth-policy lemmas -/

theorem calculateGrowth_ok_ge (size maxSize minCapacity r : Nat)
    (h : calculateGrowth size maxSize minCapacity = .ok r) :
    minCapacity ≤ r := by
  unfold calculateGrowth at h
  split at h
  · cases h
  · rename_i hmin
    split at h
    · cases h
      omega
    · cases h
      exact le_max_left _ _

/-! ### Invariant-preservation lemmas -/

theorem unallocatedAssign_inv (d : Darray α) (h : Heap)
    (rng : List (Option α)) (cap : Nat) (orc : Oracle) (n : Nat)
    (hinv : d.Inv) (hlen : rng.length ≤ cap) :
    invOutcome3 (d.unallocatedAssign h rng cap orc n) := by
  unfold Darray.unallocatedAssign
  rcases ctgDuplicate_cases h rng cap orc n with ⟨n', heq⟩ | ⟨n', heq⟩
  · rw [heq]
    exact hinv
  · rw [heq]
    have hpos := Heap.alloc_fst_pos h cap
    unfold invOutcome3 Darray.Inv
    dsimp only
    refine ⟨by omega, by omega, by omega⟩

theorem copyCtor_inv (src : Darray α) (h : Heap) (orc : Oracle) (n : Nat)
    (hsrc : src.Inv) :
    invOutcome3 (src.copyCtor h orc n) := by
  unfold Darray.copyCtor
  apply unallocatedAssign_inv
  · exact ⟨le_refl _, le_refl _, fun _ => ⟨rfl, rfl⟩⟩
  · rw [Darray.readRange, sliceRange_length]
    unfold Darray.size Darray.capacity
    obtain ⟨h1, h2, _⟩ := hsrc
    omega

theorem fwdRangeCtor_inv (h : Heap) (rng : List (Option α)) (orc : Oracle)
    (n : Nat) :
    invOutcome3 (Darray.fwdRangeCtor (α := α) h rng orc n) := by
  unfold Darray.fwdRangeCtor
  apply unallocatedAssign_inv
  · exact ⟨le_refl _, le_refl _, fun _ => ⟨rfl, rfl⟩⟩
  · exact le_refl _

theorem moveCtor_inv (src : Darray α) (hsrc : src.Inv) :
    (Darray.moveCtor src).1.Inv ∧ (Darray.moveCtor src).2.Inv :=
  ⟨hsrc, ⟨le_refl _, le_refl _, fun _ => ⟨rfl, rfl⟩⟩⟩

theorem resizeAssign_inv (d : Darray α) (h : Heap) (rng : List (Option α))
    (newCap : Nat) (orc : Oracle) (n : Nat) (hinv : d.Inv)
    (hlen : rng.length ≤ newCap) :
    invOutcome3 (d.resizeAssign h rng newCap orc n) := by
  unfold Darray.resizeAssign
  rcases ctgDuplicate_cases h rng newCap orc n with ⟨n', heq⟩ | ⟨n', heq⟩
  · rw [heq]
    exact hinv
  · rw [heq]
    have hpos := Heap.alloc_fst_pos h newCap
    unfold invOutcome3 Darray.Inv
    dsimp only
    refine ⟨by omega, by omega, by omega⟩

theorem altAllocAssign_inv (d : Darray α) (h : Heap) (rng : List (Option α))
    (orc : Oracle) (n : Nat) (hinv : d.Inv) :
    invOutcome3 (d.altAllocAssign h rng orc n) := by
  obtain ⟨hi1, hi2, hi3⟩ := hinv
  unfold Darray.altAllocAssign
  dsimp only
  by_cases hcap : d.capacity < rng.length
  · rw [if_pos hcap]
    exact resizeAssign_inv d h rng rng.length orc n ⟨hi1, hi2, hi3⟩ (le_refl _)
  · rw [if_neg hcap]
    unfold Darray.capacity at hcap
    by_cases hsz : d.size < rng.length
    · rw [if_pos hsz]
      cases h1 : copyUntilSentinel d.mem 0 d.size rng orc n with
      | error e =>
        obtain ⟨m1, n1⟩ := e
        dsimp only [invOutcome3]
        exact ⟨hi1, hi2, hi3⟩
      | ok r =>
        obtain ⟨m1, rest, n1⟩ := r
        dsimp only [invOutcome3]
        cases h2 : uninitCopy m1 d.size rest orc n1 with
        | error e =>
          obtain ⟨m2, n2⟩ := e
          dsimp only
          exact ⟨hi1, hi2, hi3⟩
        | ok r2 =>
          obtain ⟨m2, n2⟩ := r2
          unfold Darray.Inv
          dsimp only
          refine ⟨by omega, by omega, by omega⟩
    · rw [if_neg hsz]
      unfold Darray.size at hsz
      cases h1 : assignSlots d.mem 0 rng orc n with
      | error e =>
        obtain ⟨m1, n1⟩ := e
        dsimp only [invOutcome3]
        exact ⟨hi1, hi2, hi3⟩
      | ok r =>
        obtain ⟨m1, n1⟩ := r
        unfold invOutcome3 Darray.Inv
        dsimp only
        refine ⟨by omega, by omega, by omega⟩

theorem copyAssign_inv (dst src : Darray α) (h : Heap)
    (pocca equalAlloc : Bool) (orc : Oracle) (n : Nat) (hdst : dst.Inv) :
    invOutcome3 (Darray.copyAssign dst src h pocca equalAlloc orc n) := by
  unfold Darray.copyAssign
  split
  · exact altAllocAssign_inv dst h _ orc n hdst
  · exact altAllocAssign_inv dst h _ orc n hdst

theorem moveAssign_inv (dst src : Darray α) (h : Heap)
    (pocma equalAlloc : Bool) (orc : Oracle) (n : Nat)
    (hdst : dst.Inv) (hsrc : src.Inv) :
    invOutcomePair (Darray.moveAssign dst src h pocma equalAlloc orc n) := by
  unfold Darray.moveAssign
  split
  · have hx := altAllocAssign_inv dst h (src.readRange 0 src.size) orc n hdst
    cases h1 : dst.altAllocAssign h (src.readRange 0 src.size) orc n with
    | error e =>
      obtain ⟨h', d', n'⟩ := e
      rw [h1] at hx
      exact ⟨hx, hsrc⟩
    | ok r =>
      obtain ⟨h', d', n'⟩ := r
      rw [h1] at hx
      exact ⟨hx, hsrc⟩
  · exact ⟨hsrc, ⟨le_refl _, le_refl _, fun _ => ⟨rfl, rfl⟩⟩⟩

theorem erase_inv (d : Darray α) (i j : Nat) (hinv : d.Inv)
    (hj : i ≤ j) (hsz : j ≤ d.size) :
    (d.erase i j).Inv := by
  obtain ⟨h1, h2, h3⟩ := hinv
  unfold Darray.erase Darray.Inv
  unfold Darray.size at hsz
  dsimp only
  refine ⟨by omega, by omega, ?_⟩
  intro hz
  have := h3 hz
  omega

/-- Every outcome of `uEmplaceBack`: failure leaves the container
untouched, success appends the value into the slot at `last`. -/
theorem uEmplaceBack_cases (d : Darray α) (xv : Option α) (fallible : Bool)
    (orc : Oracle) (n : Nat) :
    (∃ n', d.uEmplaceBack xv fallible orc n = .error (d, n')) ∨
    (∃ n', d.uEmplaceBack xv fallible orc n =
      .ok ({ d with mem := d.mem.set d.size xv, last := d.last + 1 }, n')) := by
  unfold Darray.uEmplaceBack
  split
  · split
    · exact Or.inl ⟨n + 1, rfl⟩
    · exact Or.inr ⟨n + 1, rfl⟩
  · exact Or.inr ⟨n, rfl⟩

theorem uEmplaceBack_inv (d : Darray α) (xv : Option α) (fallible : Bool)
    (orc : Oracle) (n : Nat) (hinv : d.Inv) (hroom : d.last ≠ d.endp) :
    invOutcomeU (d.uEmplaceBack xv fallible orc n) := by
  obtain ⟨h1, h2, h3⟩ := hinv
  unfold Darray.uEmplaceBack
  split
  · split
    · exact ⟨h1, h2, h3⟩
    · unfold invOutcomeU Darray.Inv
      dsimp only
      refine ⟨by omega, by omega, ?_⟩
      intro hz
      have := h3 hz
      omega
  · unfold invOutcomeU Darray.Inv
    dsimp only
    refine ⟨by omega, by omega, ?_⟩
    intro hz
    have := h3 hz
    omega

theorem emplaceWithCapacity_inv (d : Darray α) (h : Heap) (atOff : Nat)
    (xv : Option α) (tr : Traits) (orc : Oracle) (n : Nat)
    (hinv : d.Inv) (hroom : d.last ≠ d.endp) (hat : atOff ≤ d.size) :
    invOutcome4 (d.emplaceWithCapacity h atOff xv tr orc n) := by
  obtain ⟨hi1, hi2, hi3⟩ := hinv
  unfold Darray.size at hat
  unfold Darray.emplaceWithCapacity
  by_cases hend : atOff = d.size
  · rw [if_pos hend]
    rcases uEmplaceBack_cases d xv true orc n with ⟨n', heq⟩ | ⟨n', heq⟩ <;>
      rw [heq]
    · exact ⟨hi1, hi2, hi3⟩
    · unfold invOutcome4 Darray.Inv
      dsimp only
      omega
  · rw [if_neg hend]
    unfold Darray.size at hend
    rcases uEmplaceBack_cases d (d.mem.getD (d.size - 1) none)
        (!tr.nothrowMove) orc n with ⟨n', heq⟩ | ⟨n', heq⟩ <;> rw [heq]
    · exact ⟨hi1, hi2, hi3⟩
    · try dsimp only
      split
      · unfold invOutcome4 Darray.Inv
        try dsimp only
        omega
      · try dsimp only
        split
        · split
          · unfold invOutcome4 Darray.Inv
            try dsimp only
            omega
          · split <;>
              (unfold invOutcome4 Darray.Inv; try dsimp only; omega)
        · unfold invOutcome4 Darray.Inv
          try dsimp only
          omega

/-- Every failure of the reallocating `emplace` branch leaves the
container and the heap exactly as they were: the partially built block
is destroyed and deallocated. -/
theorem emplaceRealloc_err_restore (d : Darray α) (h : Heap) (atOff : Nat)
    (xv : Option α) (tr : Traits) (orc : Oracle) (n : Nat) :
    ∀ h' d' n', d.emplaceRealloc h atOff xv tr orc n = .error (h', d', n') →
      d' = d ∧ h' = h := by
  intro h' d' n' heq
  unfold Darray.emplaceRealloc at heq
  cases hcg : calculateGrowth d.size tr.maxSize (d.capacity + 1) with
  | error u =>
    rw [hcg] at heq
    simp only [Except.error.injEq, Prod.mk.injEq] at heq
    exact ⟨heq.2.1.symm, heq.1.symm⟩
  | ok newCap =>
    rw [hcg] at heq
    dsimp only at heq
    by_cases horc : orc n = true
    · rw [if_pos horc] at heq
      simp only [Except.error.injEq, Prod.mk.injEq] at heq
      exact ⟨heq.2.1.symm, by rw [← heq.1, Heap.dealloc_alloc]⟩
    · rw [if_neg horc] at heq
      by_cases hat : atOff = d.size
      · rw [if_pos hat] at heq
        rcases uninitMoveOrCopy_cases
            ((List.replicate newCap (none : Option α)).set atOff xv) 0
            (d.readRange 0 d.size) tr orc (n + 1) with
          ⟨m', n2, hmc, -, -⟩ | ⟨n2, hmc⟩ <;> rw [hmc] at heq
        · simp only [Except.error.injEq, Prod.mk.injEq] at heq
          exact ⟨heq.2.1.symm, by rw [← heq.1, Heap.dealloc_alloc]⟩
        · simp at heq
      · rw [if_neg hat] at heq
        rcases uninitMoveOrCopy_cases
            ((List.replicate newCap (none : Option α)).set atOff xv) 0
            (d.readRange 0 atOff) tr orc (n + 1) with
          ⟨m', n2, hmc, -, -⟩ | ⟨n2, hmc⟩ <;> rw [hmc] at heq
        · simp only [Except.error.injEq, Prod.mk.injEq] at heq
          exact ⟨heq.2.1.symm, by rw [← heq.1, Heap.dealloc_alloc]⟩
        · dsimp only at heq
          rcases uninitMoveOrCopy_cases
              (writeSlots ((List.replicate newCap (none : Option α)).set atOff
                xv) 0 (d.readRange 0 atOff)) (atOff + 1)
              (d.readRange atOff d.size) tr orc n2 with
            ⟨m', n3, hmc2, -, -⟩ | ⟨n3, hmc2⟩ <;> rw [hmc2] at heq
          · simp only [Except.error.injEq, Prod.mk.injEq] at heq
            exact ⟨heq.2.1.symm, by rw [← heq.1, Heap.dealloc_alloc]⟩
          · simp at heq

theorem emplaceRealloc_inv (d : Darray α) (h : Heap) (atOff : Nat)
    (xv : Option α) (tr : Traits) (orc : Oracle) (n : Nat) (hinv : d.Inv) :
    invOutcome4 (d.emplaceRealloc h atOff xv tr orc n) := by
  obtain ⟨hi1, hi2, hi3⟩ := hinv
  have e1 : d.size = d.last - d.first := rfl
  have e2 : d.capacity = d.endp - d.first := rfl
  unfold Darray.emplaceRealloc
  cases hcg : calculateGrowth d.size tr.maxSize (d.capacity + 1) with
  | error u => exact ⟨hi1, hi2, hi3⟩
  | ok newCap =>
    have hge := calculateGrowth_ok_ge _ _ _ _ hcg
    have hpos := Heap.alloc_fst_pos h newCap
    dsimp only
    split
    · exact ⟨hi1, hi2, hi3⟩
    · split
      · split
        · unfold invOutcome4 Darray.Inv
          try dsimp only
          omega
        · unfold invOutcome4 Darray.Inv
          try dsimp only
          omega
      · split
        · unfold invOutcome4 Darray.Inv
          try dsimp only
          omega
        · split <;>
            (unfold invOutcome4 Darray.Inv; try dsimp only; omega)

theorem emplace_inv (d : Darray α) (h : Heap) (atOff : Nat)
    (xv : Option α) (tr : Traits) (orc : Oracle) (n : Nat)
    (hinv : d.Inv) (hat : atOff ≤ d.size) :
    invOutcome4 (d.emplace h atOff xv tr orc n) := by
  unfold Darray.emplace
  split
  · rename_i hroom
    exact emplaceWithCapacity_inv d h atOff xv tr orc n hinv hroom hat
  · exact emplaceRealloc_inv d h atOff xv tr orc n hinv

/-- A failing `emplace_back` leaves the container and the heap exactly
as they were (strong guarantee at the end position). -/
theorem emplaceBack_err_spec (d : Darray α) (h : Heap) (xv : Option α)
    (tr : Traits) (orc : Oracle) (n : Nat) :
    ∀ h' d' n', d.emplaceBack h xv tr orc n = .error (h', d', n') →
      d' = d ∧ h' = h := by
  intro h' d' n' heq
  unfold Darray.emplaceBack Darray.emplace at heq
  by_cases hroom : d.last ≠ d.endp
  · rw [if_pos hroom] at heq
    unfold Darray.emplaceWithCapacity at heq
    rw [if_pos rfl] at heq
    rcases uEmplaceBack_cases d xv true orc n with ⟨n2, hu⟩ | ⟨n2, hu⟩ <;>
      rw [hu] at heq
    · simp only [Except.error.injEq, Prod.mk.injEq] at heq
      exact ⟨heq.2.1.symm, heq.1.symm⟩
    · simp at heq
  · rw [if_neg hroom] at heq
    exact emplaceRealloc_err_restore d h d.size xv tr orc n h' d' n' heq

/-- A successful `emplace_back` appends the value: well-formedness is
preserved, the live slots gain exactly the new value at the end, and the
size grows by one. -/
theorem emplaceBack_ok_spec (d : Darray α) (h : Heap) (xv : Option α)
    (tr : Traits) (orc : Oracle) (n : Nat) (hwf : d.WF) :
    ∀ h' d' n' p, d.emplaceBack h xv tr orc n = .ok (h', d', n', p) →
      d'.WF ∧ d'.elems = d.elems ++ [xv] ∧ d'.size = d.size + 1 := by
  obtain ⟨⟨hi1, hi2, hi3⟩, hlen⟩ := hwf
  have e1 : d.size = d.last - d.first := rfl
  have e2 : d.capacity = d.endp - d.first := rfl
  intro h' d' n' p heq
  unfold Darray.emplaceBack Darray.emplace at heq
  by_cases hroom : d.last ≠ d.endp
  · rw [if_pos hroom] at heq
    unfold Darray.emplaceWithCapacity at heq
    rw [if_pos rfl] at heq
    rcases uEmplaceBack_cases d xv true orc n with ⟨n2, hu⟩ | ⟨n2, hu⟩ <;>
      rw [hu] at heq
    · simp at heq
    · simp only [Except.ok.injEq, Prod.mk.injEq] at heq
      obtain ⟨hh, hd, hn, hp⟩ := heq
      subst hd
      have hszlt : d.size < d.mem.length := by rw [hlen]; omega
      have hs :
          ({ d with mem := d.mem.set d.size xv, last := d.last + 1 } :
            Darray α).size = d.size + 1 := by
        unfold Darray.size
        dsimp only
        omega
      refine ⟨⟨⟨?_, ?_, ?_⟩, ?_⟩, ?_, hs⟩
      · dsimp only
        omega
      · dsimp only
        omega
      · dsimp only
        omega
      · unfold Darray.capacity
        dsimp only
        rw [List.length_set, hlen]
        rfl
      · unfold Darray.elems
        rw [hs]
        dsimp only
        rw [take_set_succ d.mem d.size xv hszlt]
  · rw [if_neg hroom] at heq
    have hfull : d.last = d.endp := by omega
    have hcapsz : d.capacity = d.size := by omega
    unfold Darray.emplaceRealloc at heq
    cases hcg : calculateGrowth d.size tr.maxSize (d.capacity + 1) with
    | error u =>
      rw [hcg] at heq
      simp at heq
    | ok newCap =>
      have hge := calculateGrowth_ok_ge _ _ _ _ hcg
      have hpos := Heap.alloc_fst_pos h newCap
      rw [hcg] at heq
      dsimp only at heq
      by_cases horc : orc n = true
      · rw [if_pos horc] at heq
        simp at heq
      · rw [if_neg horc] at heq
        rw [if_pos rfl] at heq
        rcases uninitMoveOrCopy_cases
            ((List.replicate newCap (none : Option α)).set d.size xv) 0
            (d.readRange 0 d.size) tr orc (n + 1) with
          ⟨m', n2, hmc, -, -⟩ | ⟨n2, hmc⟩ <;> rw [hmc] at heq
        · simp at heq
        · simp only [Except.ok.injEq, Prod.mk.injEq] at heq
          obtain ⟨hh, hd, hn, hp⟩ := heq
          subst hd
          have hvals : d.readRange 0 d.size = d.elems := by
            unfold Darray.readRange sliceRange Darray.elems
            rw [List.drop_zero, Nat.sub_zero]
          have hvlen : (d.readRange 0 d.size).length = d.size := by
            rw [hvals]
            unfold Darray.elems
            rw [List.length_take, hlen]
            omega
          have hsznc : d.size + 1 ≤ newCap := by omega
          have hnm0len :
              ((List.replicate newCap (none : Option α)).set d.size
                xv).length = newCap := by
            rw [List.length_set, List.length_replicate]
          have hnm0 :
              (List.replicate newCap (none : Option α)).set d.size xv =
                List.replicate d.size (none : Option α) ++ xv ::
                  List.replicate (newCap - (d.size + 1)) (none : Option α) := by
            rw [List.set_eq_take_cons_drop xv
              (by rw [List.length_replicate]; omega)]
            rw [List.take_replicate, List.drop_replicate]
            have hmn : min d.size newCap = d.size := by omega
            rw [hmn]
          have helemlen : d.elems.length = d.size := by
            unfold Darray.elems
            rw [List.length_take, hlen]
            omega
          have hw : writeSlots
              ((List.replicate newCap (none : Option α)).set d.size xv) 0
              (d.readRange 0 d.size) =
              d.elems ++ xv ::
                List.replicate (newCap - (d.size + 1)) (none : Option α) := by
            rw [writeSlots_eq (d.readRange 0 d.size)
              ((List.replicate newCap (none : Option α)).set d.size xv) 0
              (by rw [hnm0len, hvlen]; omega)]
            simp only [List.take_zero, List.nil_append, Nat.zero_add, hvlen,
              hvals, hnm0]
            simp [List.drop_append_eq_append_drop, List.length_replicate,
              List.drop_replicate, helemlen]
          have hs2 :
              (⟨(h.alloc newCap).1, (h.alloc newCap).1 + (d.size + 1),
                (h.alloc newCap).1 + newCap,
                writeSlots ((List.replicate newCap (none : Option α)).set
                  d.size xv) 0 (d.readRange 0 d.size)⟩ : Darray α).size =
              d.size + 1 := by
            unfold Darray.size
            dsimp only
            omega
          refine ⟨⟨⟨?_, ?_, ?_⟩, ?_⟩, ?_, hs2⟩
          · dsimp only
            omega
          · dsimp only
            omega
          · dsimp only
            omega
          · unfold Darray.capacity
            dsimp only
            rw [hw]
            simp only [List.length_append, List.length_cons,
              List.length_replicate, helemlen]
            omega
          · unfold Darray.elems
            rw [hs2]
            dsimp only
            rw [hw, List.take_append_eq_append_take]
            rw [List.take_of_length_le (by rw [helemlen]; omega), helemlen]
            have hz : d.size + 1 - d.size = 1 := by omega
            rw [hz]
            simp
            rfl

/-- The append loop: on success the source is appended in order; on a
failure the container holds the original elements followed by the
successfully appended prefix — nothing is duplicated or lost. -/
theorem appendAll_spec (tr : Traits) (orc : Oracle) (src : List (Option α)) :
    ∀ (d : Darray α) (h : Heap) (n : Nat), d.WF →
      (∀ h' d' n', appendAll d h src tr orc n = .ok (h', d', n') →
        d'.WF ∧ d'.elems = d.elems ++ src ∧ d'.size = d.size + src.length) ∧
      (∀ h' d' n', appendAll d h src tr orc n = .error (h', d', n') →
        ∃ k, k ≤ src.length ∧ d'.WF ∧ d'.elems = d.elems ++ src.take k) := by
  induction src with
  | nil =>
    intro d h n hwf
    constructor
    · intro h' d' n' heq
      rw [appendAll] at heq
      simp only [Except.ok.injEq, Prod.mk.injEq] at heq
      obtain ⟨hh, hd, hn⟩ := heq
      subst hd
      exact ⟨hwf, by simp, by simp⟩
    · intro h' d' n' heq
      rw [appendAll] at heq
      simp at heq
  | cons x rest ih =>
    intro d h n hwf
    constructor
    · intro h' d' n' heq
      rw [appendAll] at heq
      cases hr : d.emplaceBack h x tr orc n with
      | error e =>
        rw [hr] at heq
        simp at heq
      | ok r =>
        obtain ⟨h1, d1, n1, p⟩ := r
        rw [hr] at heq
        dsimp only at heq
        obtain ⟨hwf1, hel1, hsz1⟩ :=
          emplaceBack_ok_spec d h x tr orc n hwf h1 d1 n1 p hr
        obtain ⟨hok, -⟩ := ih d1 h1 n1 hwf1
        obtain ⟨hwf2, hel2, hsz2⟩ := hok h' d' n' heq
        refine ⟨hwf2, ?_, ?_⟩
        · rw [hel2, hel1]
          simp
        · rw [hsz2, hsz1]
          simp only [List.length_cons]
          omega
    · intro h' d' n' heq
      rw [appendAll] at heq
      cases hr : d.emplaceBack h x tr orc n with
      | error e =>
        obtain ⟨h1, d1, n1⟩ := e
        rw [hr] at heq
        dsimp only at heq
        simp only [Except.error.injEq, Prod.mk.injEq] at heq
        obtain ⟨hh, hd, hn⟩ := heq
        obtain ⟨hde, hhe⟩ := emplaceBack_err_spec d h x tr orc n h1 d1 n1 hr
        refine ⟨0, by simp, ?_, ?_⟩
        · rw [← hd, hde]
          exact hwf
        · rw [← hd, hde]
          simp
      | ok r =>
        obtain ⟨h1, d1, n1, p⟩ := r
        rw [hr] at heq
        dsimp only at heq
        obtain ⟨hwf1, hel1, hsz1⟩ :=
          emplaceBack_ok_spec d h x tr orc n hwf h1 d1 n1 p hr
        obtain ⟨-, herr⟩ := ih d1 h1 n1 hwf1
        obtain ⟨k, hk, hwf2, hel2⟩ := herr h' d' n' heq
        refine ⟨k + 1, by simp; omega, hwf2, ?_⟩
        rw [hel2, hel1]
        simp [List.take_succ_cons]

/-- The net effect of the rotation on the live window: `[f, l)` becomes
`[m, l)` followed by `[f, m)`, the length is preserved. -/
theorem rotateRange_spec (mem : List (Option α)) (f m l : Nat)
    (hf : f ≤ m) (hm : m ≤ l) (hl : l ≤ mem.length) :
    (rotateRange mem f m l).length = mem.length ∧
    (rotateRange mem f m l).take l =
      mem.take f ++ sliceRange mem m l ++ sliceRange mem f m := by
  have l1 : (mem.take f).length = f := List.length_take_of_le (by omega)
  have l2 : (sliceRange mem m l).length = l - m := by
    rw [sliceRange_length]
    omega
  have l3 : (sliceRange mem f m).length = m - f := by
    rw [sliceRange_length]
    omega
  constructor
  · unfold rotateRange
    simp only [List.length_append, l1, l2, l3, List.length_drop]
    omega
  · unfold rotateRange
    rw [List.take_append_eq_append_take]
    have hlen3 : (mem.take f ++ sliceRange mem m l ++
        sliceRange mem f m).length = l := by
      simp only [List.length_append, l1, l2, l3]
      omega
    rw [hlen3, List.take_of_length_le (le_of_eq hlen3)]
    simp

theorem insertFwdRealloc_inv (d : Darray α) (h : Heap) (atOff : Nat)
    (src : List (Option α)) (tr : Traits) (orc : Oracle) (n : Nat)
    (hinv : d.Inv) :
    invOutcome3 (d.insertFwdRealloc h atOff src tr orc n) := by
  obtain ⟨hi1, hi2, hi3⟩ := hinv
  have e1 : d.size = d.last - d.first := rfl
  unfold Darray.insertFwdRealloc
  cases hcg : calculateGrowth d.size tr.maxSize (d.size + src.length) with
  | error u => exact ⟨hi1, hi2, hi3⟩
  | ok newCap =>
    have hge := calculateGrowth_ok_ge _ _ _ _ hcg
    have hpos := Heap.alloc_fst_pos h newCap
    dsimp only
    split
    · exact ⟨hi1, hi2, hi3⟩
    · split
      · exact ⟨hi1, hi2, hi3⟩
      · split
        · exact ⟨hi1, hi2, hi3⟩
        · unfold invOutcome3 Darray.Inv
          try dsimp only
          omega

theorem insertFwdShiftSmall_inv (d : Darray α) (h : Heap) (atOff : Nat)
    (src : List (Option α)) (tr : Traits) (orc : Oracle) (n : Nat)
    (hinv : d.Inv) (hfit : src.length ≤ d.endp - d.last) :
    invOutcome3 (d.insertFwdShiftSmall h atOff src tr orc n) := by
  obtain ⟨hi1, hi2, hi3⟩ := hinv
  have e1 : d.size = d.last - d.first := rfl
  unfold Darray.insertFwdShiftSmall
  dsimp only
  split
  · exact ⟨hi1, hi2, hi3⟩
  · split
    · split <;> (unfold invOutcome3 Darray.Inv; try dsimp only; omega)
    · split
      · split <;> (unfold invOutcome3 Darray.Inv; try dsimp only; omega)
      · unfold invOutcome3 Darray.Inv
        try dsimp only
        omega

theorem insertFwdShiftLarge_inv (d : Darray α) (h : Heap) (atOff : Nat)
    (src : List (Option α)) (tr : Traits) (orc : Oracle) (n : Nat)
    (hinv : d.Inv) (hfit : src.length ≤ d.endp - d.last) :
    invOutcome3 (d.insertFwdShiftLarge h atOff src tr orc n) := by
  obtain ⟨hi1, hi2, hi3⟩ := hinv
  have e1 : d.size = d.last - d.first := rfl
  unfold Darray.insertFwdShiftLarge
  dsimp only
  split
  · exact ⟨hi1, hi2, hi3⟩
  · split
    · split <;> (unfold invOutcome3 Darray.Inv; try dsimp only; omega)
    · split
      · split <;> (unfold invOutcome3 Darray.Inv; try dsimp only; omega)
      · unfold invOutcome3 Darray.Inv
        try dsimp only
        omega

theorem insertFwd_inv (d : Darray α) (h : Heap) (atOff : Nat)
    (src : List (Option α)) (tr : Traits) (orc : Oracle) (n : Nat)
    (hinv : d.Inv) :
    invOutcome3 (d.insertFwd h atOff src tr orc n) := by
  unfold Darray.insertFwd
  dsimp only
  split
  · exact hinv
  · split
    · exact insertFwdRealloc_inv d h atOff src tr orc n hinv
    · rename_i hne hcap
      split
      · exact insertFwdShiftSmall_inv d h atOff src tr orc n hinv (by omega)
      · exact insertFwdShiftLarge_inv d h atOff src tr orc n hinv (by omega)

theorem uncheckedGrowExactly_inv (d : Darray α) (h : Heap) (newCap : Nat)
    (tr : Traits) (orc : Oracle) (n : Nat) (hinv : d.Inv)
    (hcap : d.capacity ≤ newCap) :
    invOutcome3 (d.uncheckedGrowExactly h newCap tr orc n) := by
  obtain ⟨hi1, hi2, hi3⟩ := hinv
  have e1 : d.size = d.last - d.first := rfl
  have e2 : d.capacity = d.endp - d.first := rfl
  unfold Darray.uncheckedGrowExactly
  split
  · have hpos := Heap.alloc_fst_pos h newCap
    unfold invOutcome3 Darray.Inv
    try dsimp only
    omega
  · apply resizeAssign_inv d h _ newCap orc n ⟨hi1, hi2, hi3⟩
    rw [Darray.readRange, sliceRange_length]
    omega

theorem reserve_inv (d : Darray α) (h : Heap) (newCap : Nat) (tr : Traits)
    (orc : Oracle) (n : Nat) (hinv : d.Inv) :
    invOutcome3 (d.reserve h newCap tr orc n) := by
  unfold Darray.reserve
  split
  · exact uncheckedGrowExactly_inv d h newCap tr orc n hinv (by omega)
  · exact hinv

theorem shrinkToFit_inv (d : Darray α) (h : Heap) (tr : Traits)
    (orc : Oracle) (n : Nat) (hinv : d.Inv) :
    invOutcome3 (d.shrinkToFit h tr orc n) := by
  obtain ⟨hi1, hi2, hi3⟩ := hinv
  unfold Darray.shrinkToFit
  dsimp only
  split
  · have hpos := Heap.alloc_fst_pos h d.size
    split
    · exact ⟨hi1, hi2, hi3⟩
    · unfold invOutcome3 Darray.Inv
      try dsimp only
      omega
  · exact ⟨hi1, hi2, hi3⟩

theorem mkEmpty_WF : (Darray.mkEmpty α).WF :=
  ⟨⟨le_refl _, le_refl _, fun _ => ⟨rfl, rfl⟩⟩, rfl⟩

theorem inputRangeCtor_inv (h : Heap) (src : List (Option α)) (tr : Traits)
    (orc : Oracle) (n : Nat) :
    invOutcome3 (Darray.inputRangeCtor (α := α) h src tr orc n) := by
  unfold Darray.inputRangeCtor
  have hspec := appendAll_spec tr orc src (Darray.mkEmpty α) h n mkEmpty_WF
  cases hr : appendAll (Darray.mkEmpty α) h src tr orc n with
  | ok r =>
    obtain ⟨h', d', n'⟩ := r
    exact (hspec.1 h' d' n' hr).1.1
  | error e =>
    obtain ⟨h', d', n'⟩ := e
    obtain ⟨k, -, hwf, -⟩ := hspec.2 h' d' n' hr
    exact hwf.1

theorem insertInput_inv (d : Darray α) (h : Heap) (atOff : Nat)
    (src : List (Option α)) (tr : Traits) (orc : Oracle) (n : Nat)
    (hwf : d.WF) :
    invOutcome3 (d.insertInput h atOff src tr orc n) := by
  unfold Darray.insertInput
  dsimp only
  have hspec := appendAll_spec tr orc src d h n hwf
  cases hr : appendAll d h src tr orc n with
  | ok r =>
    obtain ⟨h', d', n'⟩ := r
    have hok := (hspec.1 h' d' n' hr).1.1
    obtain ⟨ho1, ho2, ho3⟩ := hok
    dsimp only
    split
    · exact ⟨ho1, ho2, ho3⟩
    · exact ⟨ho1, ho2, ho3⟩
  | error e =>
    obtain ⟨h', d', n'⟩ := e
    obtain ⟨k, -, hwf2, -⟩ := hspec.2 h' d' n' hr
    exact hwf2.1

theorem assignInput_inv (d : Darray α) (h : Heap) (src : List (Option α))
    (tr : Traits) (orc : Oracle) (n : Nat) (hwf : d.WF) :
    invOutcome3 (d.assignInput h src tr orc n) := by
  obtain ⟨⟨hi1, hi2, hi3⟩, hlen⟩ := hwf
  have e1 : d.size = d.last - d.first := rfl
  have e2 : d.capacity = d.endp - d.first := rfl
  unfold Darray.assignInput
  cases hr : copyUntilSentinel d.mem 0 d.size src orc n with
  | error e =>
    obtain ⟨m1, n1⟩ := e
    exact ⟨hi1, hi2, hi3⟩
  | ok r =>
    obtain ⟨m1, rest, n1⟩ := r
    obtain ⟨hml, hrl, hcons⟩ := (copyUntilSentinel_spec src d.mem 0 d.size n).1
      m1 rest n1 hr
    dsimp only
    have hwf1 : (⟨d.first, d.first + (src.length - rest.length), d.endp,
        destroyRange m1 (src.length - rest.length) d.size⟩ : Darray α).WF := by
      refine ⟨⟨by dsimp only; omega, by dsimp only; omega,
        by dsimp only; omega⟩, ?_⟩
      unfold Darray.capacity
      dsimp only
      rw [destroyRange_length, hml, hlen]
      exact e2
    have hspec := appendAll_spec tr orc rest
      (⟨d.first, d.first + (src.length - rest.length), d.endp,
        destroyRange m1 (src.length - rest.length) d.size⟩ : Darray α) h n1
      hwf1
    cases ha : appendAll (⟨d.first, d.first + (src.length - rest.length),
        d.endp, destroyRange m1 (src.length - rest.length) d.size⟩ : Darray α)
        h rest tr orc n1 with
    | ok r2 =>
      obtain ⟨h', d', n'⟩ := r2
      exact (hspec.1 h' d' n' ha).1.1
    | error e2 =>
      obtain ⟨h', d', n'⟩ := e2
      obtain ⟨k, -, hwf2, -⟩ := hspec.2 h' d' n' ha
      exact hwf2.1

/-! ### Claim theorems -/

/-- C1: the claim says `erase(first, last)` shifts the trailing live
elements down and yields `[1,4,5]` of size 3 from `[1,2,3,4,5]` with
`erase(index 1, index 3)`.  The code instead destroys only `[first,
last)` and sets the used-end to `first`: the result is `[1]` of size 1
(capacity unchanged), and the elements at offsets 3 and 4 stay
constructed beyond the live range, never destroyed. -/
theorem erase_on_sample_truncates_and_leaks :
    ((Darray.ofList [1, 2, 3, 4, 5]).erase 1 3).size = 1 ∧
    ((Darray.ofList [1, 2, 3, 4, 5]).erase 1 3).elems = [some 1] ∧
    ((Darray.ofList [1, 2, 3, 4, 5]).erase 1 3).capacity = 5 ∧
    ((Darray.ofList [1, 2, 3, 4, 5]).erase 1 3).mem =
      [some 1, none, none, some 4, some 5] := by
  refine ⟨rfl, rfl, rfl, by decide⟩

/-- C2: the claim says a copy equals the source element-for-element.
Copy construction does (it duplicates `[first, last)`), but copy
assignment reaches `assign(other.first, other.end)` — the whole block —
so assigning from a source of size 1 and capacity 2 produces a
container of size 2 whose second live slot is uninitialized memory. -/
theorem copyAssign_on_sample_copies_whole_block :
    Darray.copyAssign (Darray.mkEmpty Nat)
        (⟨1, 2, 3, [some 7, none]⟩ : Darray Nat) ⟨[(1, 2)]⟩
        false true (fun _ => false) 0 =
      .ok (⟨[(1, 2), (4, 2)]⟩, ⟨4, 6, 6, [some 7, none]⟩, 2) ∧
    (⟨1, 2, 3, [some 7, none]⟩ : Darray Nat).size = 1 ∧
    (⟨1, 2, 3, [some 7, none]⟩ : Darray Nat).elems = [some 7] ∧
    (⟨4, 6, 6, [some 7, none]⟩ : Darray Nat).size = 2 ∧
    (⟨4, 6, 6, [some 7, none]⟩ : Darray Nat).elems = [some 7, none] := by
  refine ⟨rfl, rfl, rfl, rfl, rfl⟩

/-- C3: with no spare capacity, `emplace` takes the reallocating
branch; if the new element's constructor throws or any migration into
the new block fails, the container (size, capacity and every element)
and the heap are exactly as before the call — the new block has been
freed. -/
theorem emplace_realloc_failure_restores (α : Type) (h : Heap)
    (d : Darray α) (atOff : Nat) (xv : Option α) (tr : Traits)
    (orc : Oracle) (n : Nat) (h' : Heap) (d' : Darray α) (n' : Nat)
    (hinv : d.Inv) (hfull : d.size = d.capacity) (hat : atOff ≤ d.size)
    (herr : d.emplace h atOff xv tr orc n = .error (h', d', n')) :
    d' = d ∧ h' = h := by
  have hlast : d.last = d.endp := by
    obtain ⟨h1, h2, _⟩ := hinv
    unfold Darray.size Darray.capacity at hfull
    omega
  unfold Darray.emplace at herr
  rw [if_neg (by omega)] at herr
  exact emplaceRealloc_err_restore d h atOff xv tr orc n h' d' n' herr

/-- Witness for C3: a full container `[10, 20]`, a throwing-copy
element type, the third copy-constructor invocation throwing during
`emplace` at position 1; the failure restores container and heap. -/
theorem emplace_realloc_failure_restores_witness :
    (⟨1, 3, 3, [some 10, some 20]⟩ : Darray Nat) =
        ⟨1, 3, 3, [some 10, some 20]⟩ ∧
      (⟨[(1, 2)]⟩ : Heap) = ⟨[(1, 2)]⟩ :=
  emplace_realloc_failure_restores Nat ⟨[(1, 2)]⟩
    ⟨1, 3, 3, [some 10, some 20]⟩ 1 (some 5) ⟨false, 100⟩
    (fun k => k == 2) 0 ⟨[(1, 2)]⟩ ⟨1, 3, 3, [some 10, some 20]⟩ 3
    (by decide) (by decide) (by decide) rfl

/-- C5: the growth computation fails exactly when the requested
minimum exceeds the maximum addressable element count; otherwise it
returns `max(minRequired, size + size/2)`, and exactly the maximum
when `size + size/2` would exceed it. -/
theorem calculateGrowth_matches_spec (size maxSize minCapacity : Nat)
    (hs : size ≤ maxSize) :
    calculateGrowth size maxSize minCapacity =
      (if maxSize < minCapacity then .error ()
       else if maxSize < size + size / 2 then .ok maxSize
       else .ok (max minCapacity (size + size / 2))) := by
  unfold calculateGrowth
  have hsr : size >>> 1 = size / 2 := rfl
  rw [hsr]
  have hhalf : size / 2 ≤ size := Nat.div_le_self _ _
  by_cases h1 : maxSize < minCapacity
  · rw [if_pos h1, if_pos h1]
  · rw [if_neg h1, if_neg h1]
    by_cases h2 : maxSize - size / 2 < size
    · rw [if_pos h2, if_pos (by omega)]
    · rw [if_neg h2, if_neg (by omega)]

/-- Witness for C5 at `size 2`, `maxSize 10`, `minCapacity 4`. -/
theorem calculateGrowth_matches_spec_witness :
    calculateGrowth 2 10 4 =
      (if 10 < 4 then .error ()
       else if 10 < 2 + 2 / 2 then .ok 10
       else .ok (max 4 (2 + 2 / 2))) :=
  calculateGrowth_matches_spec 2 10 4 (by decide)

/-- C7: the claim says `reserve(n)` with `capacity < n` reallocates to
exactly `n` preserving size and element values.  The nothrow-move path
does, but the fallback path calls `_resize_assign(_alloc(),
_data().first, _data().end, n)` — duplicating the whole block including
its uninitialized tail — so for a throwing-move element type a size-1,
capacity-2 container comes out of `reserve(3)` with size 2 and an
uninitialized slot inside the live range (the `n <= capacity` no-op
half and the exact-capacity half do hold). -/
theorem reserve_fallback_on_sample_grows_live_range :
    (⟨1, 2, 3, [some 5, none]⟩ : Darray Nat).reserve ⟨[(1, 2)]⟩ 3
        ⟨false, 100⟩ (fun _ => false) 0 =
      .ok (⟨[(4, 3)]⟩, ⟨4, 6, 7, [some 5, none, none]⟩, 2) ∧
    (⟨1, 2, 3, [some 5, none]⟩ : Darray Nat).size = 1 ∧
    (⟨4, 6, 7, [some 5, none, none]⟩ : Darray Nat).size = 2 ∧
    (⟨4, 6, 7, [some 5, none, none]⟩ : Darray Nat).capacity = 3 := by
  refine ⟨rfl, rfl, rfl, rfl⟩

/-- C9: move construction, and move assignment whenever the allocation
strategies propagate or compare equal, transfer the `first/last/end`
triad in O(1) without touching elements; the source's pointers are
nulled, so it is empty and its destructor deallocates nothing. -/
theorem move_transfers_triad_and_nulls_source (α : Type) (h hd : Heap)
    (dst src : Darray α) (pocma equalAlloc : Bool) (orc : Oracle) (n : Nat)
    (hflag : pocma = true ∨ equalAlloc = true) :
    ((Darray.moveCtor src).1.first = src.first ∧
     (Darray.moveCtor src).1.last = src.last ∧
     (Darray.moveCtor src).1.endp = src.endp ∧
     (Darray.moveCtor src).1.mem = src.mem ∧
     (Darray.moveCtor src).2 = (⟨0, 0, 0, []⟩ : Darray α) ∧
     (Darray.moveCtor src).2.size = 0 ∧
     Darray.clearDealloc (Darray.moveCtor src).2 hd = hd) ∧
    Darray.moveAssign dst src h pocma equalAlloc orc n =
      .ok (dst.clearDealloc h, ⟨src.first, src.last, src.endp, src.mem⟩,
           (⟨0, 0, 0, []⟩ : Darray α), n) := by
  constructor
  · exact ⟨rfl, rfl, rfl, rfl, rfl, rfl, rfl⟩
  · unfold Darray.moveAssign
    rcases hflag with hp | he
    · subst hp
      simp
    · subst he
      simp

/-- Witness for C9: moving a two-element container with a propagating
allocation strategy. -/
theorem move_transfers_triad_and_nulls_source_witness :
    ((Darray.moveCtor (Darray.ofList [1, 2])).1.first =
        (Darray.ofList [1, 2]).first ∧
     (Darray.moveCtor (Darray.ofList [1, 2])).1.last =
        (Darray.ofList [1, 2]).last ∧
     (Darray.moveCtor (Darray.ofList [1, 2])).1.endp =
        (Darray.ofList [1, 2]).endp ∧
     (Darray.moveCtor (Darray.ofList [1, 2])).1.mem =
        (Darray.ofList [1, 2]).mem ∧
     (Darray.moveCtor (Darray.ofList [1, 2])).2 = (⟨0, 0, 0, []⟩ : Darray Nat) ∧
     (Darray.moveCtor (Darray.ofList [1, 2])).2.size = 0 ∧
     Darray.clearDealloc (Darray.moveCtor (Darray.ofList [1, 2])).2
        (⟨[]⟩ : Heap) = (⟨[]⟩ : Heap)) ∧
    Darray.moveAssign (Darray.mkEmpty Nat) (Darray.ofList [1, 2]) ⟨[(1, 2)]⟩
        true false (fun _ => false) 0 =
      .ok ((Darray.mkEmpty Nat).clearDealloc ⟨[(1, 2)]⟩,
           ⟨(Darray.ofList [1, 2]).first, (Darray.ofList [1, 2]).last,
            (Darray.ofList [1, 2]).endp, (Darray.ofList [1, 2]).mem⟩,
           (⟨0, 0, 0, []⟩ : Darray Nat), 0) :=
  move_transfers_triad_and_nulls_source Nat ⟨[(1, 2)]⟩ ⟨[]⟩
    (Darray.mkEmpty Nat) (Darray.ofList [1, 2]) true false
    (fun _ => false) 0 (Or.inl rfl)

/-- C10: inserting an empty forward range is a complete no-op: no
allocation, the state (pointers, elements, size, capacity) unchanged. -/
theorem insertFwd_empty_range_noop (α : Type) (d : Darray α) (h : Heap)
    (atOff : Nat) (tr : Traits) (orc : Oracle) (n : Nat) :
    d.insertFwd h atOff ([] : List (Option α)) tr orc n = .ok (h, d, n) := rfl

/-- C6: the checked accessors `front()` and `back()` fail with
`OutOfRange` exactly when the container is empty (they are pure, so the
container is untouched); on a non-empty container `front()` returns the
first live element and `back()` the last. -/
theorem front_back_checked_spec (α : Type) (d : Darray α) (base : List α)
    (hwf : d.WF) (hel : d.elems = base.map some) :
    (d.front = .error () ↔ base = []) ∧
    (d.back = .error () ↔ base = []) ∧
    (base ≠ [] → d.front = .ok base.head?) ∧
    (base ≠ [] → d.back = .ok base.getLast?) := by
  obtain ⟨⟨hi1, hi2, hi3⟩, hlen⟩ := hwf
  have e1 : d.size = d.last - d.first := rfl
  have e2 : d.capacity = d.endp - d.first := rfl
  have hbl : base.length = d.size := by
    have hc := congrArg List.length hel
    unfold Darray.elems at hc
    rw [List.length_take, List.length_map, hlen] at hc
    omega
  have hget : ∀ i, i < d.size →
      d.mem[i]? = (base.map some)[i]? := by
    intro i hi
    have h1 : (d.mem.take d.size)[i]? = d.mem[i]? := by
      rw [List.getElem?_take]
      rw [if_pos hi]
    rw [← h1]
    have h2 : d.mem.take d.size = base.map some := hel
    rw [h2]
  have hemp : (d.isEmpty = true) ↔ base = [] := by
    unfold Darray.isEmpty
    rw [beq_iff_eq]
    constructor
    · intro hle
      have h0 : base.length = 0 := by omega
      exact List.length_eq_zero.mp h0
    · intro hbnil
      have h0 : base.length = 0 := by rw [hbnil]; rfl
      omega
  cases hb : base with
  | nil =>
    have hempty : d.isEmpty = true := hemp.mpr hb
    unfold Darray.front Darray.back
    rw [hempty]
    exact ⟨⟨fun _ => rfl, fun _ => rfl⟩, ⟨fun _ => rfl, fun _ => rfl⟩,
      fun hne => absurd rfl hne, fun hne => absurd rfl hne⟩
  | cons x xs =>
    have hnotempty : d.isEmpty = false := by
      cases hie : d.isEmpty with
      | true =>
        have hnil : base = [] := hemp.mp hie
        rw [hb] at hnil
        cases hnil
      | false => rfl
    have hpos : 0 < d.size := by
      rw [← hbl, hb]
      simp
    unfold Darray.front Darray.back Darray.uncheckedFront Darray.uncheckedBack
    rw [hnotempty]
    have hfrontv : d.mem.getD 0 none = (x :: xs).head? := by
      rw [List.getD_eq_getElem?_getD, hget 0 hpos, hb]
      simp
    have hbackv : d.mem.getD (d.size - 1) none = (x :: xs).getLast? := by
      rw [List.getD_eq_getElem?_getD, hget (d.size - 1) (by omega)]
      rw [List.getElem?_map]
      rw [← hbl, hb]
      simp only [List.length_cons]
      rw [List.getLast?_eq_getElem?]
      simp only [List.length_cons]
      have hz : xs.length + 1 - 1 = xs.length := by omega
      rw [hz]
      cases hx : (x :: xs)[xs.length]? with
      | none =>
        simp at hx
      | some y =>
        simp
    refine ⟨⟨?_, ?_⟩, ⟨?_, ?_⟩, ?_, ?_⟩
    · intro hcl
      simp at hcl
    · intro hcl
      exact absurd hcl (by simp)
    · intro hcl
      simp at hcl
    · intro hcl
      exact absurd hcl (by simp)
    · intro hne
      rw [hfrontv]
      exact rfl
    · intro hne
      rw [hbackv]
      exact rfl

/-- Witness for C6 on the container `[3, 7]`. -/
theorem front_back_checked_spec_witness :
    ((Darray.ofList [3, 7]).front = .error () ↔ ([3, 7] : List Nat) = []) ∧
    ((Darray.ofList [3, 7]).back = .error () ↔ ([3, 7] : List Nat) = []) ∧
    (([3, 7] : List Nat) ≠ [] →
      (Darray.ofList [3, 7]).front = .ok ([3, 7] : List Nat).head?) ∧
    (([3, 7] : List Nat) ≠ [] →
      (Darray.ofList [3, 7]).back = .ok ([3, 7] : List Nat).getLast?) :=
  front_back_checked_spec Nat (Darray.ofList [3, 7]) [3, 7]
    (by decide) (by decide)

/-- C8: the single-pass `insert` appends each source element through
`emplace_back` and then cyclically rotates the appended run into
position: a success yields exactly the original sequence with the
source inserted at the index; a failure leaves the original elements
followed by the successfully appended prefix — no live element
duplicated or lost. -/
theorem insertInput_matches_spec (α : Type) (h : Heap) (d : Darray α)
    (base src : List α) (atOff : Nat) (tr : Traits) (orc : Oracle) (n : Nat)
    (hwf : d.WF) (hel : d.elems = base.map some)
    (hat : atOff ≤ base.length) :
    insertInputSpec base src atOff
      (d.insertInput h atOff (src.map some) tr orc n) := by
  have hwfc := hwf
  obtain ⟨⟨hi1, hi2, hi3⟩, hlen⟩ := hwfc
  have e1 : d.size = d.last - d.first := rfl
  have e2 : d.capacity = d.endp - d.first := rfl
  have hbl : base.length = d.size := by
    have hc := congrArg List.length hel
    unfold Darray.elems at hc
    rw [List.length_take, List.length_map, hlen] at hc
    omega
  have hml : (src.map some).length = src.length := List.length_map ..
  unfold Darray.insertInput
  dsimp only
  have hspec := appendAll_spec tr orc (src.map some) d h n hwf
  cases ha : appendAll d h (src.map some) tr orc n with
  | error eo =>
    obtain ⟨h1, d1, n1⟩ := eo
    obtain ⟨k, hk, hwf1, hel1⟩ := hspec.2 h1 d1 n1 ha
    dsimp only [insertInputSpec]
    refine ⟨k, by omega, ?_⟩
    rw [hel1, hel, List.map_append, List.map_take]
  | ok r =>
    obtain ⟨h1, d1, n1⟩ := r
    obtain ⟨⟨⟨hj1, hj2, hj3⟩, hlen1⟩, hel1, hsz1⟩ := hspec.1 h1 d1 n1 ha
    have f1 : d1.size = d1.last - d1.first := rfl
    have f2 : d1.capacity = d1.endp - d1.first := rfl
    have hA : d1.mem.take d1.size = base.map some ++ src.map some := by
      have hx := hel1
      unfold Darray.elems at hx
      rw [hx]
      have hel2 : List.take d.size d.mem = List.map some base := hel
      rw [hel2]
    have hmA : (base.map some).length = d.size := by
      rw [List.length_map]
      omega
    dsimp only
    by_cases hae : atOff = d.size
    · rw [if_neg (by omega)]
      dsimp only [insertInputSpec]
      have hbb : atOff = base.length := by omega
      subst hbb
      constructor
      · rw [hel1, hel]
        simp [List.take_length, List.drop_length, List.map_append]
      · omega
    · rw [if_pos hae]
      dsimp only [insertInputSpec]
      have hatd : atOff ≤ d.size := by omega
      have hdz : d.size ≤ d1.size := by omega
      have hszle : d1.size ≤ d1.mem.length := by
        rw [hlen1]
        omega
      have hrot := rotateRange_spec d1.mem atOff d.size d1.size hatd hdz hszle
      have hrs : ({ d1 with mem := rotateRange d1.mem atOff d.size d1.size } :
          Darray α).size = d1.size := rfl
      constructor
      · unfold Darray.elems
        rw [hrs]
        dsimp only
        rw [hrot.2]
        have htakef : d1.mem.take atOff = (base.map some).take atOff := by
          have h1t : d1.mem.take atOff = (d1.mem.take d1.size).take atOff := by
            rw [List.take_take]
            have hm1 : min atOff d1.size = atOff := by omega
            rw [hm1]
          rw [h1t, hA, List.take_append_eq_append_take]
          have hz : atOff - (base.map some).length = 0 := by omega
          rw [hz]
          simp
        have hslice1 : sliceRange d1.mem d.size d1.size = src.map some := by
          unfold sliceRange
          have hd1 : (d1.mem.take d1.size).drop d.size =
              (d1.mem.drop d.size).take (d1.size - d.size) := List.drop_take ..
          rw [← hd1, hA, ← hmA, List.drop_left]
        have hslice2 : sliceRange d1.mem atOff d.size =
            (base.map some).drop atOff := by
          unfold sliceRange
          have hd2 : (d1.mem.take d.size).drop atOff =
              (d1.mem.drop atOff).take (d.size - atOff) := List.drop_take ..
          rw [← hd2]
          have h2t : d1.mem.take d.size = base.map some := by
            have h3t : d1.mem.take d.size =
                (d1.mem.take d1.size).take d.size := by
              rw [List.take_take]
              have hm2 : min d.size d1.size = d.size := by omega
              rw [hm2]
            rw [h3t, hA, ← hmA, List.take_left]
          rw [h2t]
        rw [htakef, hslice1, hslice2]
        rw [List.map_append, List.map_append, List.map_take, List.map_drop]
      · rw [hrs]
        omega

/-- Witness for C8: inserting `[10, 11]` at index 1 of `[1, 2, 3]`. -/
theorem insertInput_matches_spec_witness :
    insertInputSpec [1, 2, 3] [10, 11] 1
      ((Darray.ofList [1, 2, 3]).insertInput ⟨[(1, 3)]⟩ 1
        ([10, 11].map some) ⟨true, 100⟩ (fun _ => false) 0) :=
  insertInput_matches_spec Nat ⟨[(1, 3)]⟩ (Darray.ofList [1, 2, 3])
    [1, 2, 3] [10, 11] 1 ⟨true, 100⟩ (fun _ => false) 0
    (by decide) (by decide) (by decide)

/-- C4: every embedded public operation of `darray` preserves the
layout invariant `start ≤ usedEnd ≤ capacityEnd`, with a null `start`
forcing null `usedEnd` and `capacityEnd`; operations that can fail
preserve it in their failure outcomes as well. -/
theorem public_ops_preserve_invariant (α : Type) (h : Heap)
    (d o e : Darray α) (tr : Traits) (orc : Oracle)
    (n i j atOff newCap : Nat) (xv : Option α) (src : List (Option α))
    (pocca pocma eqa fallible : Bool)
    (hd : d.WF) (ho : o.WF) (he : e.Inv) (hroom : e.last ≠ e.endp)
    (hij : i ≤ j) (hj : j ≤ d.size) (hat : atOff ≤ d.size) :
    (Darray.mkEmpty α).Inv ∧
    invOutcome3 (o.copyCtor h orc n) ∧
    ((Darray.moveCtor o).1.Inv ∧ (Darray.moveCtor o).2.Inv) ∧
    invOutcome3 (Darray.copyAssign d o h pocca eqa orc n) ∧
    invOutcomePair (Darray.moveAssign d o h pocma eqa orc n) ∧
    (d.erase i j).Inv ∧
    invOutcomeU (e.uEmplaceBack xv fallible orc n) ∧
    invOutcome4 (d.emplace h atOff xv tr orc n) ∧
    invOutcome3 (d.insertInput h atOff src tr orc n) ∧
    invOutcome3 (d.insertFwd h atOff src tr orc n) ∧
    invOutcome3 (d.altAllocAssign h src orc n) ∧
    invOutcome3 (d.assignInput h src tr orc n) ∧
    invOutcome3 (d.reserve h newCap tr orc n) ∧
    invOutcome3 (d.shrinkToFit h tr orc n) ∧
    invOutcome3 (Darray.fwdRangeCtor (α := α) h src orc n) ∧
    invOutcome3 (Darray.inputRangeCtor (α := α) h src tr orc n) :=
  ⟨mkEmpty_WF.1,
   copyCtor_inv o h orc n ho.1,
   moveCtor_inv o ho.1,
   copyAssign_inv d o h pocca eqa orc n hd.1,
   moveAssign_inv d o h pocma eqa orc n hd.1 ho.1,
   erase_inv d i j hd.1 hij hj,
   uEmplaceBack_inv e xv fallible orc n he hroom,
   emplace_inv d h atOff xv tr orc n hd.1 hat,
   insertInput_inv d h atOff src tr orc n hd,
   insertFwd_inv d h atOff src tr orc n hd.1,
   altAllocAssign_inv d h src orc n hd.1,
   assignInput_inv d h src tr orc n hd,
   reserve_inv d h newCap tr orc n hd.1,
   shrinkToFit_inv d h tr orc n hd.1,
   fwdRangeCtor_inv h src orc n,
   inputRangeCtor_inv h src tr orc n⟩

/-- Witness for C4: concrete containers, a one-element source range and
a throwing-copy trait configuration. -/
theorem public_ops_preserve_invariant_witness :
    (Darray.mkEmpty Nat).Inv ∧
    invOutcome3 ((Darray.ofList [5]).copyCtor ⟨[(1, 2)]⟩ (fun _ => false) 0) ∧
    ((Darray.moveCtor (Darray.ofList [5])).1.Inv ∧
      (Darray.moveCtor (Darray.ofList [5])).2.Inv) ∧
    invOutcome3 (Darray.copyAssign (Darray.ofList [1, 2])
      (Darray.ofList [5]) ⟨[(1, 2)]⟩ false true (fun _ => false) 0) ∧
    invOutcomePair (Darray.moveAssign (Darray.ofList [1, 2])
      (Darray.ofList [5]) ⟨[(1, 2)]⟩ false true (fun _ => false) 0) ∧
    ((Darray.ofList [1, 2]).erase 0 1).Inv ∧
    invOutcomeU ((⟨1, 2, 3, [some 1, none]⟩ : Darray Nat).uEmplaceBack
      (some 9) true (fun _ => false) 0) ∧
    invOutcome4 ((Darray.ofList [1, 2]).emplace ⟨[(1, 2)]⟩ 1 (some 9)
      ⟨false, 100⟩ (fun _ => false) 0) ∧
    invOutcome3 ((Darray.ofList [1, 2]).insertInput ⟨[(1, 2)]⟩ 1 [some 4]
      ⟨false, 100⟩ (fun _ => false) 0) ∧
    invOutcome3 ((Darray.ofList [1, 2]).insertFwd ⟨[(1, 2)]⟩ 1 [some 4]
      ⟨false, 100⟩ (fun _ => false) 0) ∧
    invOutcome3 ((Darray.ofList [1, 2]).altAllocAssign ⟨[(1, 2)]⟩ [some 4]
      (fun _ => false) 0) ∧
    invOutcome3 ((Darray.ofList [1, 2]).assignInput ⟨[(1, 2)]⟩ [some 4]
      ⟨false, 100⟩ (fun _ => false) 0) ∧
    invOutcome3 ((Darray.ofList [1, 2]).reserve ⟨[(1, 2)]⟩ 3 ⟨false, 100⟩
      (fun _ => false) 0) ∧
    invOutcome3 ((Darray.ofList [1, 2]).shrinkToFit ⟨[(1, 2)]⟩ ⟨false, 100⟩
      (fun _ => false) 0) ∧
    invOutcome3 (Darray.fwdRangeCtor (α := Nat) ⟨[(1, 2)]⟩ [some 4]
      (fun _ => false) 0) ∧
    invOutcome3 (Darray.inputRangeCtor (α := Nat) ⟨[(1, 2)]⟩ [some 4]
      ⟨false, 100⟩ (fun _ => false) 0) :=
  public_ops_preserve_invariant Nat ⟨[(1, 2)]⟩ (Darray.ofList [1, 2])
    (Darray.ofList [5]) ⟨1, 2, 3, [some 1, none]⟩ ⟨false, 100⟩
    (fun _ => false) 0 0 1 1 3 (some 9) [some 4] false false true true
    (by decide) (by decide) (by decide) (by decide) (by decide) (by decide)
    (by decide)

end Expu
